import Mathlib

/-!
# Verification of the contract-playbook patch-and-extraction pipeline

This file gives a shallow embedding of the core of the repository:

* the patch transaction builder `updateClause`
  (src/components/superdoc/SuperdocEditor.tsx, first component copy,
  lines 330-418), together with the position mapper it contains;
* the batch chunker `createChunks`, the retry wrapper
  `generateContentWithRetry`, the dedup loop of `analyzeDocumentWithGemini`
  and the rule-IR extractor `parseRuleIR`
  (src/services/geminiService (rm).ts).

Documents are modelled in the editor's token/position style: a block's
content is a sequence of slots, where every character of a text leaf
occupies one slot and every structural (non-text) token occupies one slot
(`Slot.bnd`).  Absolute document positions are `base + index` where
`base = clausePos + 1` is the position of the first token of the block's
content.  This is exactly the coordinate system in which the source builds
its `positionMap` (`absolutePos = clausePos + 1 + pos`, one entry per
character, skipping non-text nodes).
-/

namespace ContractPlaybook

/-- One token of a block's content: a text character, or a structural
(non-text) token such as the open/close token of a nested node. -/
inductive Slot where
  | chr (c : Char)
  | bnd
deriving DecidableEq, Repr

/-- The extracted text of a token sequence: the characters of its text
leaves in order (the `textBuffer` accumulated by `updateClause`). -/
def extractText : List Slot → List Char
  | [] => []
  | .chr c :: r => c :: extractText r
  | .bnd :: r => extractText r

/-- The position map built by `updateClause`: walking the block content
left to right, every character is assigned its absolute document position
(`positionMap.push(absolutePos + i)`); non-text tokens are skipped but
still occupy a position. -/
def charPositions (base : Nat) : List Slot → List Nat
  | [] => []
  | .chr _ :: r => base :: charPositions (base + 1) r
  | .bnd :: r => charPositions (base + 1) r

/-- Diff operation tags (DIFF_EQUAL / DIFF_DELETE / DIFF_INSERT of
utils/diff, an external collaborator of this core). -/
inductive DiffOp where
  | equal
  | delete
  | insert
deriving DecidableEq, Repr

/-- One diff segment `{op, text}` as returned by `calculateWordDiff`. -/
structure DiffSeg where
  op : DiffOp
  text : List Char
deriving DecidableEq, Repr

/-- Concatenating all tokens with `op ≠ INSERT` reproduces the original
text (the diff primitive's contract, spec section 3). -/
def reconOriginal (ds : List DiffSeg) : List Char :=
  ((ds.filter (fun s => s.op ≠ DiffOp.insert)).map (·.text)).flatten

/-- Concatenating all tokens with `op ≠ DELETE` reproduces the proposed
text (the diff primitive's contract, spec section 3). -/
def reconProposed (ds : List DiffSeg) : List Char :=
  ((ds.filter (fun s => s.op ≠ DiffOp.delete)).map (·.text)).flatten

/-- The contract of the external diff primitive over a pair of texts:
both reconstruction laws hold and no segment carries an empty token. -/
def diffValid (ds : List DiffSeg) (original proposed : List Char) : Prop :=
  reconOriginal ds = original ∧ reconProposed ds = proposed ∧
    ∀ s ∈ ds, s.text ≠ []

instance (ds : List DiffSeg) (original proposed : List Char) :
    Decidable (diffValid ds original proposed) := by
  unfold diffValid; infer_instance

/-- One operation of the edit transaction: `tr.delete(from, to)` or
`tr.insertText(text, pos)`, with the absolute document positions the
builder computed (offsets may be negative mid-build, hence `Int`). -/
inductive EditOp where
  | del (a b : Int)
  | ins (text : List Char) (pos : Int)
deriving DecidableEq, Repr

/-- Effect of one edit operation on a block content whose first token
occupies absolute position `base`: a delete removes the tokens in
`[from, to)`, an insert splices the text's characters in at `pos`. -/
def applyEditOp (base : Nat) (s : List Slot) : EditOp → List Slot
  | .del a b => s.take (a - base).toNat ++ s.drop (b - base).toNat
  | .ins z pos => s.take (pos - base).toNat ++ z.map Slot.chr ++ s.drop (pos - base).toNat

/-- Applying the single ordered transaction: the operations run in the
order the builder chained them onto `tr`. -/
def applyTransaction (base : Nat) (ops : List EditOp) (s : List Slot) : List Slot :=
  ops.foldl (applyEditOp base) s

/-- The builder's running state: `textIndex` into the extracted original
text, the cumulative `mapOffset`, and the operations chained so far. -/
structure BuildState where
  textIndex : Nat
  mapOffset : Int
  ops : List EditOp
deriving DecidableEq, Repr

/-- One iteration of the `diffs.forEach` loop of `updateClause`
(SuperdocEditor.tsx lines 383-402): EQUAL advances the text index, DELETE
emits a delete over `[positionMap[textIndex], positionMap[endTextIndex]+1)`
shifted by the running offset, INSERT emits an insert at
`positionMap[textIndex]` (or one past the last mapped position when the
text index is past the end) shifted by the running offset. -/
def patchStep (positionMap : List Nat) (st : BuildState) (part : DiffSeg) : BuildState :=
  let token := part.text
  match part.op with
  | .equal => { st with textIndex := st.textIndex + token.length }
  | .delete =>
    let baseDocPos := positionMap.getD st.textIndex 0
    let endTextIndex := min (st.textIndex + token.length - 1) (positionMap.length - 1)
    let baseEndDocPos := positionMap.getD endTextIndex 0 + 1
    let actualDocPos := (baseDocPos : Int) + st.mapOffset
    let actualEndDocPos := (baseEndDocPos : Int) + st.mapOffset
    { textIndex := st.textIndex + token.length,
      mapOffset := st.mapOffset - (actualEndDocPos - actualDocPos),
      ops := st.ops ++ [.del actualDocPos actualEndDocPos] }
  | .insert =>
    let baseDocPos := if st.textIndex < positionMap.length
      then positionMap.getD st.textIndex 0
      else positionMap.getD (positionMap.length - 1) 0 + 1
    let actualDocPos := (baseDocPos : Int) + st.mapOffset
    { st with
      mapOffset := st.mapOffset + token.length,
      ops := st.ops ++ [.ins token actualDocPos] }

/-- The full builder loop over the diff segments, starting from
`textIndex = 0`, `mapOffset = 0` and an empty transaction. -/
def buildPatch (positionMap : List Nat) (diffs : List DiffSeg) : BuildState :=
  diffs.foldl (patchStep positionMap) ⟨0, 0, []⟩

/-- Result of `updateClause`: whether it succeeded, the edit operations of
the single transaction it dispatched, and the error messages it logged. -/
structure PatchOutcome where
  ok : Bool
  ops : List EditOp
  errors : List String
deriving DecidableEq, Repr

/-- `updateClause` (SuperdocEditor.tsx lines 330-418), patch phase: build
the position map over the block content; with an empty map refuse, log
`'No text in block'` and return failure; otherwise run the diff loop and
dispatch the single transaction.  The diff segments are a parameter
standing for `calculateWordDiff(textBuffer, newText)`. -/
def updateClause (base : Nat) (content : List Slot) (diffs : List DiffSeg) :
    PatchOutcome :=
  let positionMap := charPositions base content
  if positionMap.length = 0 then
    { ok := false, ops := [], errors := ["No text in block"] }
  else
    { ok := true, ops := (buildPatch positionMap diffs).ops, errors := [] }

/-- The attributes of a block node that the status update touches. -/
structure BlockAttrs where
  id : String
  status : String
deriving DecidableEq, Repr

/-- The post-edit traversal of `updateClause` (SuperdocEditor.tsx lines
405-409): the target block is found again by its id in the document state
read *after* the edit transaction was dispatched ("We use the ID to find
the node again as positions might have shifted"). -/
def findPosById (doc : List BlockAttrs) (clauseId : String) : Option Nat :=
  doc.findIdx? (fun b => b.id = clauseId)

/-- The status-update transaction (lines 410-413): when the block was
found, a second, fresh transaction sets the node's `status` attribute to
'pending' at the freshly computed position; when not found, nothing is
dispatched. -/
def markPendingTx (doc : List BlockAttrs) (clauseId : String) : List BlockAttrs :=
  match findPosById doc clauseId with
  | none => doc
  | some p =>
    match doc[p]? with
    | none => doc
    | some b => doc.set p { b with status := "pending" }

/-- A paragraph (block) of the shadow document. -/
structure Paragraph where
  id : List Char
  text : List Char
deriving DecidableEq, Repr

/-- The shadow document: the ordered list of its paragraphs. -/
structure ShadowDocument where
  paragraphs : List Paragraph
deriving DecidableEq, Repr

/-- `MAX_CHARS_PER_BATCH = 40000`: the serialized character budget per
batch. -/
def MAX_CHARS_PER_BATCH : Nat := 40000

/-- Serialization of one block into a batch:
`<<CLAUSE id="${p.id}">>\n${p.text}\n<<END_CLAUSE>>\n\n`. -/
def serializeClause (p : Paragraph) : List Char :=
  "<<CLAUSE id=\"".toList ++ p.id ++ "\">>\n".toList ++ p.text
    ++ "\n<<END_CLAUSE>>\n\n".toList

/-- The dynamic per-batch clause ceiling chosen from the average block
size of the whole document: more small blocks per batch, fewer large
ones. -/
def dynamicMaxClauses (avgBlockSize : Rat) : Nat :=
  if avgBlockSize < 200 then 50
  else if avgBlockSize < 500 then 30
  else 18

/-- The mutable state of the chunking loop: finished chunks, the chunk
being accumulated, and its clause count. -/
structure ChunkState where
  chunks : List (List Char)
  currentChunk : List Char
  currentClauseCount : Nat
deriving DecidableEq, Repr

/-- One iteration of the `for (const p of document.paragraphs)` loop: a
block that would push the current chunk past the character budget or the
clause ceiling first flushes the chunk if it is non-empty; the block is
then appended to the (possibly fresh) current chunk. -/
def chunkStep (maxClauses : Nat) (st : ChunkState) (p : Paragraph) : ChunkState :=
  let pText := serializeClause p
  let willExceedChars := st.currentChunk.length + pText.length > MAX_CHARS_PER_BATCH
  let willExceedClauses := st.currentClauseCount + 1 > maxClauses
  let st' :=
    if (willExceedChars ∨ willExceedClauses) ∧ st.currentChunk.length > 0 then
      ChunkState.mk (st.chunks ++ [st.currentChunk]) [] 0
    else st
  ChunkState.mk st'.chunks (st'.currentChunk ++ pText) (st'.currentClauseCount + 1)

/-- `createChunks` (geminiService lines 319-360): empty documents return
no chunks before the average block size is computed; otherwise the loop
runs with the dynamic clause ceiling and a non-empty trailing chunk is
flushed at the end. -/
def createChunks (doc : ShadowDocument) : List (List Char) :=
  if doc.paragraphs.length = 0 then []
  else
    let totalChars : Nat := (doc.paragraphs.map (fun p => p.text.length)).sum
    let avgBlockSize : Rat := (totalChars : Rat) / (doc.paragraphs.length : Rat)
    let maxClauses := dynamicMaxClauses avgBlockSize
    let st := doc.paragraphs.foldl (chunkStep maxClauses) (ChunkState.mk [] [] 0)
    if st.currentChunk.length > 0 then st.chunks ++ [st.currentChunk] else st.chunks

/-- The serialized text of a group of blocks. -/
def grpText (g : List Paragraph) : List Char :=
  (g.map serializeClause).flatten

/-- The chunking loop replayed over block groups instead of serialized
text, used to state that no block's serialization is ever split across
two chunks. -/
structure GroupState where
  groups : List (List Paragraph)
  cur : List Paragraph
deriving DecidableEq, Repr

/-- `chunkStep`, at the granularity of block groups: same flush
condition, evaluated on the serialized text of the current group. -/
def groupStep (maxClauses : Nat) (st : GroupState) (p : Paragraph) : GroupState :=
  if ((grpText st.cur).length + (serializeClause p).length > MAX_CHARS_PER_BATCH
        ∨ st.cur.length + 1 > maxClauses)
      ∧ (grpText st.cur).length > 0 then
    GroupState.mk (st.groups ++ [st.cur]) [p]
  else
    GroupState.mk st.groups (st.cur ++ [p])

/-- The grouping of the document's blocks that the chunker realizes. -/
def chunkGroups (doc : ShadowDocument) : List (List Paragraph) :=
  if doc.paragraphs.length = 0 then []
  else
    let totalChars : Nat := (doc.paragraphs.map (fun p => p.text.length)).sum
    let avgBlockSize : Rat := (totalChars : Rat) / (doc.paragraphs.length : Rat)
    let maxClauses := dynamicMaxClauses avgBlockSize
    let st := doc.paragraphs.foldl (groupStep maxClauses) (GroupState.mk [] [])
    if (grpText st.cur).length > 0 then st.groups ++ [st.cur] else st.groups

/-- A chunk boundary is justified: appending the first block of the next
group to the previous chunk would have crossed the character budget or
the clause ceiling. -/
def boundaryOk (m : Nat) (g g' : List Paragraph) : Prop :=
  ∀ p rest, g' = p :: rest →
    (grpText g).length + (serializeClause p).length > MAX_CHARS_PER_BATCH
    ∨ g.length + 1 > m

/-- Invariant of the grouping loop: all finished groups are non-empty,
the current group is non-empty as soon as a group has been flushed, and
every adjacent pair among finished groups plus the current group has a
justified boundary. -/
def GroupInv (m : Nat) (st : GroupState) : Prop :=
  (∀ g ∈ st.groups, g ≠ []) ∧ (st.groups ≠ [] → st.cur ≠ []) ∧
    List.Chain' (boundaryOk m) (st.groups ++ [st.cur])

/-- Error object of a failed remote call, with the fields inspected by
`generateContentWithRetry`. -/
structure GemErr where
  status : Option Nat
  code : Option Nat
  msg : String
deriving DecidableEq, Repr

/-- `msg.includes(pat)`: substring containment. -/
def containsSub (msg pat : String) : Bool :=
  decide (pat.toList <:+: msg.toList)

/-- `isRateLimit`: status/code 429, or a message containing `429`,
`quota` or `RESOURCE_EXHAUSTED`. -/
def isRateLimitErr (e : GemErr) : Bool :=
  e.status == some 429 || e.code == some 429
    || containsSub e.msg "429"
    || containsSub e.msg "quota"
    || containsSub e.msg "RESOURCE_EXHAUSTED"

/-- `isServerError`: status 500 or 503, or code 500. -/
def isServerErr (e : GemErr) : Bool :=
  e.status == some 500 || e.status == some 503 || e.code == some 500

/-- A transient failure: rate-limit or server-side. -/
def isTransientErr (e : GemErr) : Bool := isRateLimitErr e || isServerErr e

/-- `generateContentWithRetry` (lines 364-380): attempt `k`'s outcome is
`attempts k`; a transient failure with retries remaining sleeps
`2000 * 2^(3 - retries)` ms and recurses; any other failure, or an
exhausted budget, propagates the error.  Returns the final outcome and
the list of backoff delays slept. -/
def generateContentWithRetry {α : Type} (attempts : Nat → Except GemErr α)
    (k : Nat) (retries : Nat := 3) : Except GemErr α × List Nat :=
  match attempts k with
  | .ok v => (.ok v, [])
  | .error e =>
    if h : 0 < retries ∧ isTransientErr e = true then
      let backoff := 2000 * 2 ^ (3 - retries)
      let r := generateContentWithRetry attempts (k + 1) (retries - 1)
      (r.1, backoff :: r.2)
    else (.error e, [])
termination_by retries
decreasing_by omega

/-- A finding mapped from one IR clause record (`mapIRToFindings`,
services/irParser.ts — external to this file's source; only the two
fields the dedup loop reads are modelled). -/
structure Finding where
  target_id : List Char
  original_text : List Char
deriving DecidableEq, Repr

/-- `String.prototype.trim`: strip leading and trailing whitespace. -/
def trimChars (s : List Char) : List Char :=
  ((s.dropWhile Char.isWhitespace).reverse.dropWhile Char.isWhitespace).reverse

/-- The content fingerprint: trimmed, lowercased first 100 characters of
`original_text`, concatenated with the untrimmed length
(`${f.original_text.trim().toLowerCase().substring(0,100)}_${f.original_text.length}`). -/
def textHash (f : Finding) : List Char :=
  ((trimChars f.original_text).map Char.toLower).take 100
    ++ "_".toList ++ (toString f.original_text.length).toList

/-- The distinguishable console messages of a run. -/
inductive RunWarn where
  | dupId (id : List Char)
  | dupContent (origId dupId : List Char)
  | batchFailed (i : Nat)
  | batchSkipped (i : Nat)
deriving DecidableEq, Repr

/-- The dedup bookkeeping of `analyzeDocumentWithGemini`: the accepted
findings, the `seenIds` set and the `seenTextHashes` map. -/
structure DedupState where
  allFindings : List Finding
  seenIds : List (List Char)
  seenTextHashes : List Char → Option (List Char)

/-- The initial dedup state of a run. -/
def initDedup : DedupState := ⟨[], [], fun _ => none⟩

/-- Accepting a finding: push it, record its id, and map its fingerprint
to its id. -/
def dedupAccept (st : DedupState) (f : Finding) : DedupState :=
  { allFindings := st.allFindings ++ [f],
    seenIds := st.seenIds ++ [f.target_id],
    seenTextHashes := fun k =>
      if k = textHash f then some f.target_id else st.seenTextHashes k }

/-- One iteration of the `for (const f of findings)` dedup loop (lines
493-515), returning the new state and the console warnings emitted.
Check 1 rejects an already-seen id; check 2 rejects a fingerprint match
under a different id (the JS truthiness test on the stored id is kept:
a stored empty string does not reject). -/
def dedupStep (st : DedupState) (f : Finding) : DedupState × List RunWarn :=
  if f.target_id ∈ st.seenIds then
    (st, [RunWarn.dupId f.target_id])
  else
    match st.seenTextHashes (textHash f) with
    | some existingIdForText =>
      if existingIdForText ≠ [] ∧ existingIdForText ≠ f.target_id then
        (st, [RunWarn.dupContent existingIdForText f.target_id])
      else
        (dedupAccept st f, [])
    | none => (dedupAccept st f, [])

/-- The dedup loop over one batch's findings, accumulating warnings. -/
def dedupFold (st : DedupState) (fs : List Finding) : DedupState × List RunWarn :=
  fs.foldl
    (fun acc f =>
      let r := dedupStep acc.1 f
      (r.1, acc.2 ++ r.2))
    (st, [])

/-- What one batch's processing amounts to at the dispatch loop:
skipped by the local-relevance pre-check before any remote call, failed
remotely (after retries, caught by the batch's try/catch), or a list of
findings parsed from the response. -/
inductive BatchOutcome where
  | skipped
  | failed (e : GemErr)
  | ok (findings : List Finding)
deriving Repr

/-- The findings a batch outcome delivers. -/
def okFindings : BatchOutcome → List Finding
  | .ok fs => fs
  | _ => []

/-- Start/end of a remote call, for the dispatch trace. -/
inductive DispatchEvent where
  | callStart (i : Nat)
  | callEnd (i : Nat)
deriving DecidableEq, Repr

/-- The whole-run state: dedup bookkeeping, warnings and the dispatch
trace. -/
structure RunState where
  dedup : DedupState
  warnings : List RunWarn
  trace : List DispatchEvent

/-- One iteration of the batch loop of `analyzeDocumentWithGemini`
(lines 450-517): the loop `await`s each remote call before the next
iteration starts, so a batch's `callStart`/`callEnd` pair is appended
whole; a skipped batch issues no call; a failed batch is caught, logged,
and contributes no findings; a successful batch's findings run through
the dedup loop. -/
def processBatch (i : Nat) (st : RunState) (outcome : BatchOutcome) : RunState :=
  match outcome with
  | .skipped =>
    { st with warnings := st.warnings ++ [RunWarn.batchSkipped i] }
  | .failed _ =>
    { st with
      warnings := st.warnings ++ [RunWarn.batchFailed i],
      trace := st.trace ++ [DispatchEvent.callStart i, DispatchEvent.callEnd i] }
  | .ok fs =>
    { dedup := (dedupFold st.dedup fs).1,
      warnings := st.warnings ++ (dedupFold st.dedup fs).2,
      trace := st.trace ++ [DispatchEvent.callStart i, DispatchEvent.callEnd i] }

/-- The initial run state. -/
def initRun : RunState := ⟨initDedup, [], []⟩

/-- `analyzeDocumentWithGemini`, dispatch structure (lines 437-520): one
sequential pass over the chunks of the document; `outcomes.getD i
.skipped` stands for what batch `i`'s processing produced (the remote
service, the relevance pre-check and the IR parser it feeds are external
to the loop's control flow). -/
def runFold (outcomes : List BatchOutcome) (is : List Nat) (st : RunState) : RunState :=
  is.foldl (fun st i => processBatch i st (outcomes.getD i BatchOutcome.skipped)) st

def analyzeRun (doc : ShadowDocument) (outcomes : List BatchOutcome) : RunState :=
  runFold outcomes (List.range (createChunks doc).length) initRun

/-- Whether a console message is a dedup rejection. -/
def isDupWarn : RunWarn → Bool
  | .dupId _ => true
  | .dupContent _ _ => true
  | _ => false

/-- Invariant of the dedup bookkeeping: kept findings carry non-empty
identifiers, their identifiers are all in `seenIds`, the fingerprint map
sends each kept finding's fingerprint to its own identifier, and kept
identifiers are pairwise distinct. -/
def DedupInv (st : DedupState) : Prop :=
  (∀ f ∈ st.allFindings, f.target_id ≠ []) ∧
  (∀ f ∈ st.allFindings, f.target_id ∈ st.seenIds) ∧
  (∀ f ∈ st.allFindings, st.seenTextHashes (textHash f) = some f.target_id) ∧
  st.allFindings.Pairwise (fun f g => f.target_id ≠ g.target_id)

/-- One step of the in-flight counter over a dispatch trace: a start
raises the count, an end lowers it; the running maximum is kept. -/
def inFlightStep : (Int × Int) → DispatchEvent → (Int × Int)
  | (c, m), DispatchEvent.callStart _ => (c + 1, max m (c + 1))
  | (c, m), DispatchEvent.callEnd _ => (c - 1, m)

/-- The maximum number of remote calls simultaneously in flight over a
dispatch trace. -/
def maxInFlight (tr : List DispatchEvent) : Int :=
  (tr.foldl inFlightStep (0, 0)).2

/-- Index of the first occurrence of an event in a trace (the trace
length when absent). -/
def eventIdx (tr : List DispatchEvent) (e : DispatchEvent) : Nat :=
  tr.findIdx (fun x => x = e)

/-- The observable behaviour the claim attributes to the dispatch: a
bounded worker pool of parallel tasks (`runWithConcurrencyLimit`, lines
383-405) starts tasks eagerly until the limit fills, so with a limit of
at least two and at least two batches, the second batch's remote call
starts before the first batch's call completes. -/
def IsPoolDispatch (limit numBatches : Nat) (tr : List DispatchEvent) : Prop :=
  2 ≤ limit → 2 ≤ numBatches →
    eventIdx tr (DispatchEvent.callStart 1) < eventIdx tr (DispatchEvent.callEnd 0)

/-- A block whose text is 25000 characters of `a`, used to force a chunk
boundary by the character budget. -/
def bigBlock : Paragraph := Paragraph.mk [] (List.replicate 25000 'a')

/-- The risk thresholds of a playbook rule (types.ts, `PlaybookRule`). -/
structure RiskCriteria where
  green : List Char
  yellow : List Char
  red : List Char
deriving DecidableEq, Repr

/-- A playbook rule (types.ts): optional TS fields are `Option`s. -/
structure PlaybookRule where
  rule_id : Option (List Char)
  category : Option (List Char)
  subcategory : Option (List Char)
  topic : List Char
  synonyms : Option (List (List Char))
  signal_keywords : Option (List (List Char))
  clause_number : Option (List Char)
  preferred_position : List Char
  reasoning : List Char
  fallback_position : Option (List Char)
  suggested_drafting : Option (List Char)
  risk_criteria : RiskCriteria
deriving DecidableEq, Repr

/-- A quote character of the block header pattern: `"` or the single
quote (code points 34 and 39). -/
def isQuote (c : Char) : Bool := c.toNat == 34 || c.toNat == 39

/-- Match a literal at the head of the input; on success return the rest. -/
def matchLit : List Char → List Char → Option (List Char)
  | [], s => some s
  | _ :: _, [] => none
  | l :: ls, c :: cs => if c = l then matchLit ls cs else none

/-- Case-insensitive literal match (the `i` regex flag). -/
def matchLitCI : List Char → List Char → Option (List Char)
  | [], s => some s
  | _ :: _, [] => none
  | l :: ls, c :: cs => if c.toLower = l.toLower then matchLitCI ls cs else none

/-- Try the block-header pattern `<<RULE\s+id=["]([^"]+)["]\s*>>` (with
either quote character) at the head of the input; on success return the
captured id and the rest after `>>`. -/
def parseHeaderAt (s : List Char) : Option (List Char × List Char) :=
  match matchLit "<<RULE".toList s with
  | none => none
  | some s1 =>
    let ws := s1.takeWhile Char.isWhitespace
    if ws.length = 0 then none
    else
      match matchLit "id=".toList (s1.drop ws.length) with
      | none => none
      | some s2 =>
        match s2 with
        | [] => none
        | q :: s3 =>
          if isQuote q then
            let idChars := s3.takeWhile (fun c => !(isQuote c))
            if idChars.length = 0 then none
            else
              match s3.drop idChars.length with
              | [] => none
              | q2 :: s4 =>
                if isQuote q2 then
                  match matchLit ">>".toList (s4.dropWhile Char.isWhitespace) with
                  | none => none
                  | some s6 => some (idChars, s6)
                else none
          else none

/-- Split the input at the first occurrence of a marker: the text before
it and the text after it (the lazy `([\s\S]*?)MARKER` idiom). -/
def splitOnMarker (marker : List Char) : List Char → Option (List Char × List Char)
  | [] => none
  | c :: rest =>
    match matchLit marker (c :: rest) with
    | some after => some ([], after)
    | none =>
      match splitOnMarker marker rest with
      | some (pre, after) => some (c :: pre, after)
      | none => none

/-- The `blockRegex.exec` loop: scan left to right; at a position where
the header matches and a terminator follows, emit the (id, body) pair
and resume after the terminator; otherwise advance one character.  Fuel
is the remaining input length, which every step strictly decreases. -/
def scanBlocksGo : Nat → List Char → List (List Char × List Char)
  | 0, _ => []
  | _ + 1, [] => []
  | fuel + 1, c :: rest =>
    match parseHeaderAt (c :: rest) with
    | some (id, afterHeader) =>
      match splitOnMarker "<<END_RULE>>".toList afterHeader with
      | some (body, afterEnd) => (id, body) :: scanBlocksGo fuel afterEnd
      | none => scanBlocksGo fuel rest
    | none => scanBlocksGo fuel rest

/-- All `<<RULE id=...>> body <<END_RULE>>` records of a generated text,
in order. -/
def scanBlocks (s : List Char) : List (List Char × List Char) :=
  scanBlocksGo s.length s

/-- A character the section-label lookahead `[A-Z_]+` accepts under the
case-insensitive flag: a letter of either case or an underscore. -/
def isSectionChar (c : Char) : Bool :=
  (65 ≤ c.toNat && c.toNat ≤ 90) || (97 ≤ c.toNat && c.toNat ≤ 122) || c.toNat == 95

/-- Whether the input starts with a section label `[LABEL]`. -/
def isSectionStart (s : List Char) : Bool :=
  match s with
  | c :: rest =>
    if c = '[' then
      let run := rest.takeWhile isSectionChar
      decide (0 < run.length) &&
        (match rest.drop run.length with
          | d :: _ => d = ']'
          | [] => false)
    else false
  | [] => false

/-- The lazy capture `([\s\S]*?)(?=\[[A-Z_]+\]|$)`: everything up to the
next section label or the end of the input. -/
def captureUpto : List Char → List Char
  | [] => []
  | c :: rest => if isSectionStart (c :: rest) then [] else c :: captureUpto rest

/-- The first case-insensitive occurrence of a marker; on success return
the rest after it. -/
def findMarkerCI (marker : List Char) : List Char → Option (List Char)
  | [] => none
  | c :: rest =>
    match matchLitCI marker (c :: rest) with
    | some after => some after
    | none => findMarkerCI marker rest

/-- The `extract` helper of `parseRuleIR` (lines 242-246): the first
case-insensitive `[KEY]` section of the body, captured lazily up to the
next section label or the end, then trimmed; `none` when the section is
absent (`m ? m[1].trim() : null`). -/
def extract (key : List Char) (body : List Char) : Option (List Char) :=
  match findMarkerCI ('[' :: (key ++ [']'])) body with
  | some after => some (trimChars (captureUpto after))
  | none => none

/-- JS truthiness of an extracted section: present and non-empty. -/
def truthy (o : Option (List Char)) : Bool :=
  match o with
  | some v => !v.isEmpty
  | none => false

/-- `if (x) field = x` on a required string field. -/
def updVal (o : Option (List Char)) (old : List Char) : List Char :=
  match o with
  | some v => if v ≠ [] then v else old
  | none => old

/-- `if (x) field = x` on an optional string field. -/
def updOpt (o : Option (List Char)) (old : Option (List Char)) : Option (List Char) :=
  match o with
  | some v => if v ≠ [] then some v else old
  | none => old

/-- The body of the `parseRuleIR` block loop after the strict id match
(lines 238-278): copy the original rule, overwrite each field whose
section is present and non-empty, and rebuild `risk_criteria` only when
at least one of the three risk sections is truthy, each colour falling
back to the original value (`red || newRule.risk_criteria.red`). -/
def applyRuleUpdate (originalRule : PlaybookRule) (body : List Char) : PlaybookRule :=
  let topic := extract "TOPIC".toList body
  let category := extract "CATEGORY".toList body
  let preferred := extract "PREFERRED".toList body
  let reasoning := extract "REASONING".toList body
  let fallback := extract "FALLBACK".toList body
  let drafting := extract "DRAFTING".toList body
  let red := extract "RISK_RED".toList body
  let yellow := extract "RISK_YELLOW".toList body
  let green := extract "RISK_GREEN".toList body
  { originalRule with
    topic := updVal topic originalRule.topic,
    category := updOpt category originalRule.category,
    preferred_position := updVal preferred originalRule.preferred_position,
    reasoning := updVal reasoning originalRule.reasoning,
    fallback_position := updOpt fallback originalRule.fallback_position,
    suggested_drafting := updOpt drafting originalRule.suggested_drafting,
    risk_criteria :=
      if truthy red || truthy yellow || truthy green then
        RiskCriteria.mk
          (updVal green originalRule.risk_criteria.green)
          (updVal yellow originalRule.risk_criteria.yellow)
          (updVal red originalRule.risk_criteria.red)
      else originalRule.risk_criteria }

/-- `parseRuleIR` (lines 217-285): for each scanned record, a strict id
match against the original rules (`originalRules.find(r => r.rule_id ===
id)`); unknown ids are skipped, known ids push the updated copy. -/
def parseRuleIR (text : List Char) (originalRules : List PlaybookRule) :
    List PlaybookRule :=
  (scanBlocks text).filterMap (fun m =>
    match originalRules.find? (fun q => q.rule_id == some m.1) with
    | some originalRule => some (applyRuleUpdate originalRule m.2)
    | none => none)

/-- The frame property of one updated rule against its original: the
fields `parseRuleIR` never writes are kept verbatim; every written field
is kept verbatim when its section is absent or trims to empty, and is
exactly the extracted section text when present — the three risk
colours independently. -/
def FrameRespects (r orig : PlaybookRule) (body : List Char) : Prop :=
  r.rule_id = orig.rule_id ∧
  r.subcategory = orig.subcategory ∧
  r.synonyms = orig.synonyms ∧
  r.signal_keywords = orig.signal_keywords ∧
  r.clause_number = orig.clause_number ∧
  (truthy (extract "TOPIC".toList body) = false → r.topic = orig.topic) ∧
  (truthy (extract "TOPIC".toList body) = true →
    ∃ v, extract "TOPIC".toList body = some v ∧ r.topic = v) ∧
  (truthy (extract "CATEGORY".toList body) = false → r.category = orig.category) ∧
  (truthy (extract "CATEGORY".toList body) = true →
    ∃ v, extract "CATEGORY".toList body = some v ∧ r.category = some v) ∧
  (truthy (extract "PREFERRED".toList body) = false →
    r.preferred_position = orig.preferred_position) ∧
  (truthy (extract "PREFERRED".toList body) = true →
    ∃ v, extract "PREFERRED".toList body = some v ∧ r.preferred_position = v) ∧
  (truthy (extract "REASONING".toList body) = false → r.reasoning = orig.reasoning) ∧
  (truthy (extract "REASONING".toList body) = true →
    ∃ v, extract "REASONING".toList body = some v ∧ r.reasoning = v) ∧
  (truthy (extract "FALLBACK".toList body) = false →
    r.fallback_position = orig.fallback_position) ∧
  (truthy (extract "FALLBACK".toList body) = true →
    ∃ v, extract "FALLBACK".toList body = some v ∧ r.fallback_position = some v) ∧
  (truthy (extract "DRAFTING".toList body) = false →
    r.suggested_drafting = orig.suggested_drafting) ∧
  (truthy (extract "DRAFTING".toList body) = true →
    ∃ v, extract "DRAFTING".toList body = some v ∧ r.suggested_drafting = some v) ∧
  (truthy (extract "RISK_RED".toList body) = false →
    r.risk_criteria.red = orig.risk_criteria.red) ∧
  (truthy (extract "RISK_RED".toList body) = true →
    ∃ v, extract "RISK_RED".toList body = some v ∧ r.risk_criteria.red = v) ∧
  (truthy (extract "RISK_YELLOW".toList body) = false →
    r.risk_criteria.yellow = orig.risk_criteria.yellow) ∧
  (truthy (extract "RISK_YELLOW".toList body) = true →
    ∃ v, extract "RISK_YELLOW".toList body = some v ∧ r.risk_criteria.yellow = v) ∧
  (truthy (extract "RISK_GREEN".toList body) = false →
    r.risk_criteria.green = orig.risk_criteria.green) ∧
  (truthy (extract "RISK_GREEN".toList body) = true →
    ∃ v, extract "RISK_GREEN".toList body = some v ∧ r.risk_criteria.green = v)

/-- A concrete original rule for the C8 witness. -/
def ruleUpdOrig : PlaybookRule :=
  { rule_id := some "R1".toList,
    category := some "LIABILITY".toList,
    subcategory := some "CAP".toList,
    topic := "Old Topic".toList,
    synonyms := some ["cap".toList],
    signal_keywords := none,
    clause_number := some "2.1".toList,
    preferred_position := "Old Pref".toList,
    reasoning := "Old Reasoning".toList,
    fallback_position := none,
    suggested_drafting := none,
    risk_criteria := RiskCriteria.mk "Old G".toList "Old Y".toList "Old R".toList }

/-- The record body of the C8 witness: only TOPIC and RISK_RED present. -/
def ruleUpdBody : List Char := "[TOPIC] New Topic [RISK_RED] Danger".toList

/-- The generated text of the C8 witness: one well-formed record. -/
def ruleUpdText : List Char :=
  "<<RULE id=\"R1\">>".toList ++ ruleUpdBody ++ "<<END_RULE>>".toList

theorem extractText_append (a b : List Slot) :
    extractText (a ++ b) = extractText a ++ extractText b := by
  induction a with
  | nil => rfl
  | cons s r ih => cases s <;> simp [extractText, ih]

theorem charPositions_length (p : Nat) (s : List Slot) :
    (charPositions p s).length = (extractText s).length := by
  induction s generalizing p with
  | nil => rfl
  | cons x r ih => cases x <;> simp [charPositions, extractText, ih]

theorem charPositions_append (p : Nat) (a b : List Slot) :
    charPositions p (a ++ b) =
      charPositions p a ++ charPositions (p + a.length) b := by
  induction a generalizing p with
  | nil => simp [charPositions]
  | cons x r ih =>
    cases x <;> simp [charPositions, ih, Nat.add_assoc, Nat.add_comm 1 r.length]

theorem charPositions_eq_nil_of_noText (p : Nat) (s : List Slot)
    (h : extractText s = []) : charPositions p s = [] := by
  induction s generalizing p with
  | nil => rfl
  | cons x r ih =>
    cases x with
    | chr c => simp [extractText] at h
    | bnd => exact ih (p + 1) h

/-- Splitting a token sequence after its `L`-th character: the sequence
decomposes as a character-free lead `G`, a middle part `D` that starts and
ends at a character and carries exactly the first `L` characters, and a
remainder.  The conclusions describe the position-map entries the patch
builder reads for a segment of length `L` starting at the current text
index: its first position, its last position, and the map that remains
after the segment. -/
theorem splitAtChars (s : List Slot) :
    ∀ (L p : Nat), 1 ≤ L → L ≤ (extractText s).length →
    ∃ G D R2 : List Slot,
      s = G ++ D ++ R2 ∧
      extractText G = [] ∧
      extractText D = (extractText s).take L ∧
      extractText R2 = (extractText s).drop L ∧
      (charPositions p s).getD 0 0 = p + G.length ∧
      (charPositions p s).getD (L - 1) 0 = p + G.length + D.length - 1 ∧
      (charPositions p s).drop L = charPositions (p + G.length + D.length) R2 ∧
      charPositions p s = charPositions (p + G.length) (D ++ R2) ∧
      1 ≤ D.length := by
  induction s with
  | nil =>
    intro L p hL hle
    simp [extractText] at hle
    omega
  | cons x r ih =>
    intro L p hL hle
    cases x with
    | bnd =>
      simp only [extractText] at hle
      obtain ⟨G', D, R2, hs, hG, hD, hR, h0, hLast, hDrop, hFull, hD1⟩ :=
        ih L (p + 1) hL hle
      refine ⟨Slot.bnd :: G', D, R2, ?_, ?_, ?_, ?_, ?_, ?_, ?_, ?_, hD1⟩
      · simp [hs]
      · simpa [extractText] using hG
      · simpa [extractText] using hD
      · simpa [extractText] using hR
      · simp only [charPositions, h0, List.length_cons]; omega
      · simp only [charPositions, hLast, List.length_cons]; omega
      · simp only [charPositions, hDrop, List.length_cons]
        congr 1; omega
      · simp only [charPositions, hFull, List.length_cons]
        congr 1; omega
    | chr c =>
      match L, hL with
      | 1, _ =>
        refine ⟨[], [Slot.chr c], r, by simp, rfl, ?_, ?_, ?_, ?_, ?_, ?_, by simp⟩
        · simp [extractText]
        · simp [extractText]
        · simp [charPositions]
        · simp [charPositions]
        · simp [charPositions]
        · simp [charPositions, extractText]
      | (L' + 2), _ =>
        simp only [extractText, List.length_cons] at hle
        obtain ⟨G2, D2, R2, hs, hG, hD, hR, h0, hLast, hDrop, hFull, hD1⟩ :=
          ih (L' + 1) (p + 1) (by omega) (by omega)
        have hLast' : (charPositions (p + 1) r).getD L' 0 =
            p + 1 + G2.length + D2.length - 1 := by simpa using hLast
        refine ⟨[], Slot.chr c :: (G2 ++ D2), R2, ?_, rfl, ?_, ?_, ?_, ?_, ?_, ?_, by simp⟩
        · simp [hs]
        · simp only [extractText, extractText_append, hG, hD, List.nil_append,
            List.take_succ_cons]
        · simpa [extractText] using hR
        · simp [charPositions]
        · have e1 : L' + 2 - 1 = L' + 1 := by omega
          rw [e1]
          simp only [charPositions, List.getD_cons_succ, hLast', List.length_nil,
            List.length_cons, List.length_append]
          omega
        · show List.drop (L' + 2) (charPositions p (Slot.chr c :: r)) = _
          simp only [charPositions, List.drop_succ_cons, hDrop, List.length_nil,
            List.length_cons, List.length_append]
          congr 1
          omega
        · simp [charPositions, hs]

/-! ## Diff segments and the patch transaction builder -/

theorem extractText_map_chr (z : List Char) :
    extractText (z.map Slot.chr) = z := by
  induction z with
  | nil => rfl
  | cons c r ih => simp [extractText, ih]

theorem getD_drop (l : List Nat) (t i d : Nat) :
    (l.drop t).getD i d = l.getD (t + i) d := by
  simp [List.getD_eq_getElem?_getD, List.getElem?_drop]

theorem take_len_append {α : Type} (a b : List α) (n : Nat) (h : n = a.length) :
    (a ++ b).take n = a := by
  subst h; exact List.take_left a b

theorem drop_len_append {α : Type} (a b : List α) (n : Nat) (h : n = a.length) :
    (a ++ b).drop n = b := by
  subst h; exact List.drop_left a b

theorem reconOriginal_cons_equal (z : List Char) (rest : List DiffSeg) :
    reconOriginal (⟨DiffOp.equal, z⟩ :: rest) = z ++ reconOriginal rest := by
  simp [reconOriginal, List.filter_cons]

theorem reconOriginal_cons_delete (z : List Char) (rest : List DiffSeg) :
    reconOriginal (⟨DiffOp.delete, z⟩ :: rest) = z ++ reconOriginal rest := by
  simp [reconOriginal, List.filter_cons]

theorem reconOriginal_cons_insert (z : List Char) (rest : List DiffSeg) :
    reconOriginal (⟨DiffOp.insert, z⟩ :: rest) = reconOriginal rest := by
  simp [reconOriginal, List.filter_cons]

theorem reconProposed_cons_equal (z : List Char) (rest : List DiffSeg) :
    reconProposed (⟨DiffOp.equal, z⟩ :: rest) = z ++ reconProposed rest := by
  simp [reconProposed, List.filter_cons]

theorem reconProposed_cons_delete (z : List Char) (rest : List DiffSeg) :
    reconProposed (⟨DiffOp.delete, z⟩ :: rest) = reconProposed rest := by
  simp [reconProposed, List.filter_cons]

theorem reconProposed_cons_insert (z : List Char) (rest : List DiffSeg) :
    reconProposed (⟨DiffOp.insert, z⟩ :: rest) = z ++ reconProposed rest := by
  simp [reconProposed, List.filter_cons]

/-- The operation list accumulates on the left of the fold: running the
loop from a state with pending operations `ops0` appends the same new
operations after them, and the numeric components do not depend on
`ops0`. -/
theorem foldl_patchStep_accum (positionMap : List Nat) (ds : List DiffSeg) :
    ∀ (t : Nat) (off : Int) (ops0 : List EditOp),
      ds.foldl (patchStep positionMap) ⟨t, off, ops0⟩ =
        { textIndex := (ds.foldl (patchStep positionMap) ⟨t, off, []⟩).textIndex,
          mapOffset := (ds.foldl (patchStep positionMap) ⟨t, off, []⟩).mapOffset,
          ops := ops0 ++ (ds.foldl (patchStep positionMap) ⟨t, off, []⟩).ops } := by
  induction ds with
  | nil => intro t off ops0; simp
  | cons seg rest ih =>
    intro t off ops0
    obtain ⟨op, z⟩ := seg
    cases op with
    | equal =>
      simp only [List.foldl_cons, patchStep]
      exact ih (t + z.length) off ops0
    | delete =>
      simp only [List.foldl_cons, patchStep]
      rw [ih _ _ (ops0 ++ [_]), ih _ _ ([] ++ [_])]
      simp
    | insert =>
      simp only [List.foldl_cons, patchStep]
      rw [ih _ _ (ops0 ++ [_]), ih _ _ ([] ++ [_])]
      simp

/-- Correctness invariant of the diff-application loop: if the untouched
suffix `R` of the evolving block content still matches the position map
from text index `t` on, and the remaining diff segments reconstruct
exactly the text of `R`, then running the loop and applying the emitted
operations turns `P ++ R` into a block whose text is the already-settled
text of `P` followed by the proposed remainder. -/
theorem patchLoop_extract (positionMap : List Nat) (base : Nat) (ds : List DiffSeg) :
    ∀ (P R : List Slot) (q t : Nat) (off : Int),
      positionMap.drop t = charPositions (base + q) R →
      t ≤ positionMap.length →
      off = (P.length : Int) - (q : Int) →
      (t = positionMap.length →
        base + q = positionMap.getD (positionMap.length - 1) 0 + 1) →
      reconOriginal ds = extractText R →
      (∀ s ∈ ds, s.text ≠ []) →
      extractText (applyTransaction base
          (ds.foldl (patchStep positionMap) ⟨t, off, []⟩).ops (P ++ R))
        = extractText P ++ reconProposed ds := by
  induction ds with
  | nil =>
    intro P R q t off h1 h2 hoff h4 hO hne
    have hR : extractText R = [] := by rw [← hO]; rfl
    simp only [List.foldl_nil, applyTransaction, List.foldl_nil]
    simp [extractText_append, hR, reconProposed]
  | cons seg rest ih =>
    intro P R q t off h1 h2 hoff h4 hO hne
    have hlen : (extractText R).length = positionMap.length - t := by
      have hcl := congrArg List.length h1
      rw [charPositions_length] at hcl
      simpa using hcl.symm
    obtain ⟨op, z⟩ := seg
    have hzne : z ≠ [] := hne ⟨op, z⟩ (List.mem_cons_self _ _)
    have hzlen : 1 ≤ z.length := List.length_pos.mpr hzne
    have hnerest : ∀ s ∈ rest, s.text ≠ [] := fun s hs => hne s (List.mem_cons_of_mem _ hs)
    cases op with
    | equal =>
      have hrec : z ++ reconOriginal rest = extractText R := by
        rw [← reconOriginal_cons_equal]; exact hO
      have hle : z.length ≤ (extractText R).length := by
        rw [← hrec]; simp
      obtain ⟨G, D, R2, hsR, hG, hD, hR2, h0, hLastD, hDropL, hFull, hD1⟩ :=
        splitAtChars R z.length (base + q) hzlen hle
      have hDz : extractText D = z := by
        rw [hD, ← hrec, take_len_append z _ _ rfl]
      have hR2z : extractText R2 = reconOriginal rest := by
        rw [hR2, ← hrec, drop_len_append z _ _ rfl]
      have h1' : positionMap.drop (t + z.length) =
          charPositions (base + (q + G.length + D.length)) R2 := by
        rw [← List.drop_drop, h1, hDropL]
        congr 1; omega
      have h2' : t + z.length ≤ positionMap.length := by omega
      have hoff' : off = (((P ++ (G ++ D)).length : Nat) : Int)
          - ((q + G.length + D.length : Nat) : Int) := by
        rw [hoff]; simp only [List.length_append]; push_cast; ring
      have h4' : t + z.length = positionMap.length →
          base + (q + G.length + D.length) =
            positionMap.getD (positionMap.length - 1) 0 + 1 := by
        intro ht
        have e : positionMap.length - 1 = t + (z.length - 1) := by omega
        rw [e, ← getD_drop, h1, hLastD]
        omega
      have hPS : P ++ R = (P ++ (G ++ D)) ++ R2 := by simp [hsR]
      simp only [List.foldl_cons, patchStep]
      rw [hPS, ih (P ++ (G ++ D)) R2 (q + G.length + D.length) (t + z.length) off
        h1' h2' hoff' h4' hR2z.symm hnerest]
      rw [reconProposed_cons_equal]
      simp [extractText_append, hG, hDz]
    | delete =>
      have hrec : z ++ reconOriginal rest = extractText R := by
        rw [← reconOriginal_cons_delete]; exact hO
      have hle : z.length ≤ (extractText R).length := by
        rw [← hrec]; simp
      obtain ⟨G, D, R2, hsR, hG, hD, hR2, h0, hLastD, hDropL, hFull, hD1⟩ :=
        splitAtChars R z.length (base + q) hzlen hle
      have hDz : extractText D = z := by
        rw [hD, ← hrec, take_len_append z _ _ rfl]
      have hR2z : extractText R2 = reconOriginal rest := by
        rw [hR2, ← hrec, drop_len_append z _ _ rfl]
      have hgt : positionMap.getD t 0 = base + q + G.length := by
        show positionMap.getD (t + 0) 0 = _
        rw [← getD_drop, h1]; exact h0
      have hglD : positionMap.getD
          (min (t + z.length - 1) (positionMap.length - 1)) 0 + 1
          = base + q + G.length + D.length := by
        have hmin : min (t + z.length - 1) (positionMap.length - 1)
            = t + (z.length - 1) := by omega
        rw [hmin, ← getD_drop, h1, hLastD]
        omega
      have h1' : positionMap.drop (t + z.length) =
          charPositions (base + (q + G.length + D.length)) R2 := by
        rw [← List.drop_drop, h1, hDropL]
        congr 1; omega
      have h2' : t + z.length ≤ positionMap.length := by omega
      have h4' : t + z.length = positionMap.length →
          base + (q + G.length + D.length) =
            positionMap.getD (positionMap.length - 1) 0 + 1 := by
        intro ht
        have e : positionMap.length - 1 = t + (z.length - 1) := by omega
        rw [e, ← getD_drop, h1, hLastD]
        omega
      have hstep : patchStep positionMap ⟨t, off, []⟩ ⟨DiffOp.delete, z⟩ =
          ⟨t + z.length,
            (((P ++ G).length : Nat) : Int) - ((q + G.length + D.length : Nat) : Int),
            [EditOp.del (((base + q + G.length : Nat) : Int) + off)
              (((base + q + G.length + D.length : Nat) : Int) + off)]⟩ := by
        simp only [patchStep, hgt, hglD, List.nil_append]
        congr 1
        rw [hoff]; simp only [List.length_append]; push_cast; ring
      have hA : ((((base + q + G.length : Nat) : Int) + off) - (base : Int)).toNat
          = P.length + G.length := by
        rw [hoff]; push_cast; omega
      have hB : ((((base + q + G.length + D.length : Nat) : Int) + off) - (base : Int)).toNat
          = P.length + G.length + D.length := by
        rw [hoff]; push_cast; omega
      have hPR1 : P ++ R = (P ++ G) ++ (D ++ R2) := by simp [hsR]
      have hPR2 : P ++ R = ((P ++ G) ++ D) ++ R2 := by simp [hsR]
      have happ : applyEditOp base (P ++ R)
          (EditOp.del (((base + q + G.length : Nat) : Int) + off)
            (((base + q + G.length + D.length : Nat) : Int) + off))
          = (P ++ G) ++ R2 := by
        simp only [applyEditOp, hA, hB]
        rw [hPR1]
        rw [take_len_append (P ++ G) (D ++ R2) _ (by simp)]
        rw [hPR1.symm.trans hPR2]
        rw [drop_len_append ((P ++ G) ++ D) R2 _ (by simp only [List.length_append])]
      simp only [List.foldl_cons]
      rw [hstep, foldl_patchStep_accum]
      simp only [applyTransaction, List.foldl_append, List.foldl_cons, List.foldl_nil]
      rw [show applyEditOp base (P ++ R)
          (EditOp.del (((base + q + G.length : Nat) : Int) + off)
            (((base + q + G.length + D.length : Nat) : Int) + off))
          = (P ++ G) ++ R2 from happ]
      have := ih (P ++ G) R2 (q + G.length + D.length) (t + z.length)
        ((((P ++ G).length : Nat) : Int) - ((q + G.length + D.length : Nat) : Int))
        h1' h2' rfl h4' hR2z.symm hnerest
      simp only [applyTransaction] at this
      rw [this, reconProposed_cons_delete]
      simp [extractText_append, hG]
    | insert =>
      have hrec : reconOriginal rest = extractText R := by
        rw [← reconOriginal_cons_insert (z := z)]; exact hO
      by_cases htlt : t < positionMap.length
      · obtain ⟨G, D, R2, hsR, hG, hD, hR2, h0, hLastD, hDropL, hFull, hD1⟩ :=
          splitAtChars R 1 (base + q) (by omega) (by omega)
        have hgt : positionMap.getD t 0 = base + q + G.length := by
          show positionMap.getD (t + 0) 0 = _
          rw [← getD_drop, h1]; exact h0
        have hstep : patchStep positionMap ⟨t, off, []⟩ ⟨DiffOp.insert, z⟩ =
            ⟨t, (((P ++ G ++ z.map Slot.chr).length : Nat) : Int)
                - ((q + G.length : Nat) : Int),
              [EditOp.ins z (((base + q + G.length : Nat) : Int) + off)]⟩ := by
          simp only [patchStep, if_pos htlt, hgt, List.nil_append]
          congr 1
          rw [hoff]; simp only [List.length_append, List.length_map]; push_cast; ring
        have hA : ((((base + q + G.length : Nat) : Int) + off) - (base : Int)).toNat
            = P.length + G.length := by
          rw [hoff]; push_cast; omega
        have hPR1 : P ++ R = (P ++ G) ++ (D ++ R2) := by simp [hsR]
        have happ : applyEditOp base (P ++ R)
            (EditOp.ins z (((base + q + G.length : Nat) : Int) + off))
            = (P ++ G ++ z.map Slot.chr) ++ (D ++ R2) := by
          simp only [applyEditOp, hA]
          rw [hPR1]
          rw [take_len_append (P ++ G) (D ++ R2) _ (by simp)]
          rw [drop_len_append (P ++ G) (D ++ R2) _ (by simp)]
        have h1' : positionMap.drop t =
            charPositions (base + (q + G.length)) (D ++ R2) := by
          rw [h1, hFull]
          congr 1; omega
        have h4' : t = positionMap.length →
            base + (q + G.length) = positionMap.getD (positionMap.length - 1) 0 + 1 := by
          intro ht; omega
        have hOrest : reconOriginal rest = extractText (D ++ R2) := by
          rw [hrec, hsR]
          simp [extractText_append, hG]
        simp only [List.foldl_cons]
        rw [hstep, foldl_patchStep_accum]
        simp only [applyTransaction, List.foldl_append, List.foldl_cons, List.foldl_nil]
        rw [show applyEditOp base (P ++ R)
            (EditOp.ins z (((base + q + G.length : Nat) : Int) + off))
            = (P ++ G ++ z.map Slot.chr) ++ (D ++ R2) from happ]
        have := ih (P ++ G ++ z.map Slot.chr) (D ++ R2) (q + G.length) t
          ((((P ++ G ++ z.map Slot.chr).length : Nat) : Int) - ((q + G.length : Nat) : Int))
          h1' h2 rfl h4' hOrest hnerest
        simp only [applyTransaction] at this
        rw [this, reconProposed_cons_insert]
        simp [extractText_append, hG, extractText_map_chr]
      · have hteq : t = positionMap.length := by omega
        have hq : base + q = positionMap.getD (positionMap.length - 1) 0 + 1 :=
          h4 hteq
        have hstep : patchStep positionMap ⟨t, off, []⟩ ⟨DiffOp.insert, z⟩ =
            ⟨t, (((P ++ z.map Slot.chr).length : Nat) : Int) - ((q : Nat) : Int),
              [EditOp.ins z (((base + q : Nat) : Int) + off)]⟩ := by
          simp only [patchStep, if_neg htlt, ← hq, List.nil_append]
          congr 1
          rw [hoff]; simp only [List.length_append, List.length_map]; push_cast; ring
        have hA : ((((base + q : Nat) : Int) + off) - (base : Int)).toNat = P.length := by
          rw [hoff]; push_cast; omega
        have happ : applyEditOp base (P ++ R)
            (EditOp.ins z (((base + q : Nat) : Int) + off))
            = (P ++ z.map Slot.chr) ++ R := by
          simp only [applyEditOp, hA]
          rw [take_len_append P R _ rfl, drop_len_append P R _ rfl]
        simp only [List.foldl_cons]
        rw [hstep, foldl_patchStep_accum]
        simp only [applyTransaction, List.foldl_append, List.foldl_cons, List.foldl_nil]
        rw [show applyEditOp base (P ++ R)
            (EditOp.ins z (((base + q : Nat) : Int) + off))
            = (P ++ z.map Slot.chr) ++ R from happ]
        have := ih (P ++ z.map Slot.chr) R q t
          ((((P ++ z.map Slot.chr).length : Nat) : Int) - ((q : Nat) : Int))
          h1 h2 rfl h4 hrec hnerest
        simp only [applyTransaction] at this
        rw [this, reconProposed_cons_insert]
        simp [extractText_append, extractText_map_chr]

/-- C1: round-trip law of the patch builder.  For every pair of texts
and every block content whose extracted text equals the original and
whose position map is non-empty, `updateClause` builds one transaction
from the diff such that applying it to the block yields extracted text
equal to the proposed text exactly. -/
theorem updateClause_roundtrip (base : Nat) (content : List Slot)
    (proposed : List Char) (ds : List DiffSeg)
    (hdiff : diffValid ds (extractText content) proposed)
    (hne : charPositions base content ≠ []) :
    ∃ ops, updateClause base content ds = { ok := true, ops := ops, errors := [] } ∧
      extractText (applyTransaction base ops content) = proposed := by
  obtain ⟨hO, hP, hne'⟩ := hdiff
  have hlen0 : ¬ ((charPositions base content).length = 0) := by
    simpa [List.length_eq_zero] using hne
  refine ⟨(buildPatch (charPositions base content) ds).ops, ?_, ?_⟩
  · simp [updateClause, hlen0]
  · have hmain := patchLoop_extract (charPositions base content) base ds [] content 0 0 0
      (by simp)
      (by omega)
      (by simp)
      (fun h0 => absurd (List.length_eq_zero.mp h0.symm) hne)
      hO
      hne'
    simpa [buildPatch, hP] using hmain

/-- Witness for C1 at a concrete input: block content `a·b` (with a
structural token between the two characters), original `"ab"`, proposed
`"ac"`, diff `EQUAL "a", DELETE "b", INSERT "c"`. -/
theorem updateClause_roundtrip_witness :
    diffValid [⟨DiffOp.equal, ['a']⟩, ⟨DiffOp.delete, ['b']⟩, ⟨DiffOp.insert, ['c']⟩]
        (extractText [Slot.chr 'a', Slot.bnd, Slot.chr 'b']) ['a', 'c'] ∧
      charPositions 1 [Slot.chr 'a', Slot.bnd, Slot.chr 'b'] ≠ [] ∧
      ∃ ops,
        updateClause 1 [Slot.chr 'a', Slot.bnd, Slot.chr 'b']
            [⟨DiffOp.equal, ['a']⟩, ⟨DiffOp.delete, ['b']⟩, ⟨DiffOp.insert, ['c']⟩]
          = { ok := true, ops := ops, errors := [] } ∧
        extractText (applyTransaction 1 ops [Slot.chr 'a', Slot.bnd, Slot.chr 'b'])
          = ['a', 'c'] :=
  ⟨by decide, by decide,
    updateClause_roundtrip 1 [Slot.chr 'a', Slot.bnd, Slot.chr 'b'] ['a', 'c']
      [⟨DiffOp.equal, ['a']⟩, ⟨DiffOp.delete, ['b']⟩, ⟨DiffOp.insert, ['c']⟩]
      (by decide) (by decide)⟩

/-- C5 (amended): a block with no text leaves yields an empty position
map, and `updateClause` then refuses: it issues no edit operation, leaves
the document unchanged, logs `'No text in block'`, and returns a
non-fatal failure result. -/
theorem updateClause_empty_map_refusal (base : Nat) (content : List Slot)
    (ds : List DiffSeg) (h : extractText content = []) :
    charPositions base content = [] ∧
    updateClause base content ds =
      { ok := false, ops := [], errors := ["No text in block"] } ∧
    applyTransaction base (updateClause base content ds).ops content = content := by
  have hcp := charPositions_eq_nil_of_noText base content h
  refine ⟨hcp, ?_, ?_⟩
  · simp [updateClause, hcp]
  · simp [updateClause, hcp, applyTransaction]

/-- Witness for C5 (amended) at the concrete block `[bnd]` (a block with
a single structural token and no text leaf). -/
theorem updateClause_empty_map_refusal_witness :
    extractText [Slot.bnd] = [] ∧
      (charPositions 0 [Slot.bnd] = [] ∧
        updateClause 0 [Slot.bnd] [] =
          { ok := false, ops := [], errors := ["No text in block"] } ∧
        applyTransaction 0 (updateClause 0 [Slot.bnd] []).ops [Slot.bnd] = [Slot.bnd]) :=
  ⟨by decide, updateClause_empty_map_refusal 0 [Slot.bnd] [] (by decide)⟩

/-- C5 counterexample to the claim as stated: on a block with no text
leaves the builder logs `'No text in block'`, which is not the message
`"no text to patch"` the claim quotes. -/
theorem updateClause_empty_map_message_counterexample :
    (updateClause 1 [Slot.bnd] []).ok = false ∧
    (updateClause 1 [Slot.bnd] []).errors = ["No text in block"] ∧
    (updateClause 1 [Slot.bnd] []).errors ≠ ["no text to patch"] := by
  refine ⟨rfl, rfl, ?_⟩
  decide

/-- C6: the final `textIndex` of the diff loop is never compared to the
original text length — on a desynchronized diff (here: a DELETE of two
characters against a one-character original) the loop ends with
`textIndex = 2` while the extracted text has length `1`, yet
`updateClause` reports success and logs nothing: the mismatch is
silently ignored, no integrity warning exists in the code. -/
theorem updateClause_desync_not_surfaced :
    (buildPatch (charPositions 1 [Slot.chr 'a'])
        [⟨DiffOp.delete, ['a', 'b']⟩]).textIndex = 2 ∧
    (extractText [Slot.chr 'a']).length = 1 ∧
    (updateClause 1 [Slot.chr 'a'] [⟨DiffOp.delete, ['a', 'b']⟩]).errors = [] ∧
    (updateClause 1 [Slot.chr 'a'] [⟨DiffOp.delete, ['a', 'b']⟩]).ok = true := by
  decide

/-! ## The status-update transaction (by identity) -/

theorem findPosById_spec (doc : List BlockAttrs) (clauseId : String) :
    (∃ b ∈ doc, b.id = clauseId) →
    ∃ j b, findPosById doc clauseId = some j ∧ doc[j]? = some b ∧ b.id = clauseId := by
  induction doc with
  | nil => rintro ⟨b, hb, _⟩; cases hb
  | cons a r ih =>
    intro hmem
    by_cases ha : a.id = clauseId
    · exact ⟨0, a, by simp [findPosById, List.findIdx?_cons, ha], by simp, ha⟩
    · obtain ⟨b, hb, hbid⟩ := hmem
      have hbr : b ∈ r := by
        rcases List.mem_cons.mp hb with h | h
        · exact absurd (h ▸ hbid) ha
        · exact h
      obtain ⟨j, b', hj, hb', hid⟩ := ih ⟨b, hbr, hbid⟩
      refine ⟨j + 1, b', ?_, by simpa using hb', hid⟩
      simp only [findPosById, List.findIdx?_cons, decide_eq_true_eq, ha, if_false]
      simp only [findPosById] at hj
      simp [hj]

/-- C7: status update by identity.  For every post-edit document state
containing the target id, the second transaction finds the block by id in
that state and sets exactly that block's status to 'pending'; the block
updated carries the target id regardless of where the edits moved it. -/
theorem markPendingTx_by_identity (doc : List BlockAttrs) (clauseId : String)
    (hmem : ∃ b ∈ doc, b.id = clauseId) :
    ∃ j b, findPosById doc clauseId = some j ∧ doc[j]? = some b ∧ b.id = clauseId ∧
      markPendingTx doc clauseId = doc.set j { b with status := "pending" } ∧
      (markPendingTx doc clauseId)[j]? = some { b with status := "pending" } ∧
      ∀ k, k ≠ j → (markPendingTx doc clauseId)[k]? = doc[k]? := by
  obtain ⟨j, b, hj, hb, hid⟩ := findPosById_spec doc clauseId hmem
  have hjlt : j < doc.length := by
    by_contra hge
    rw [List.getElem?_eq_none (by omega)] at hb
    exact Option.noConfusion hb
  have hmark : markPendingTx doc clauseId = doc.set j { b with status := "pending" } := by
    simp [markPendingTx, hj, hb]
  refine ⟨j, b, hj, hb, hid, hmark, ?_, ?_⟩
  · rw [hmark]
    exact List.getElem?_set_eq_of_lt _ hjlt
  · intro k hk
    rw [hmark]
    exact List.getElem?_set_ne hk.symm

/-- Witness for C7 at a concrete post-edit state in which the target
block sits at index 1 (its position shifted past another block). -/
theorem markPendingTx_by_identity_witness :
    (∃ b ∈ [BlockAttrs.mk "x" "original", BlockAttrs.mk "c1" "original"],
        b.id = "c1") ∧
      (∃ j b,
        findPosById
            [BlockAttrs.mk "x" "original", BlockAttrs.mk "c1" "original"] "c1"
          = some j ∧
        [BlockAttrs.mk "x" "original", BlockAttrs.mk "c1" "original"][j]? = some b ∧
        b.id = "c1" ∧
        markPendingTx
            [BlockAttrs.mk "x" "original", BlockAttrs.mk "c1" "original"] "c1"
          = [BlockAttrs.mk "x" "original",
              BlockAttrs.mk "c1" "original"].set j { b with status := "pending" } ∧
        (markPendingTx
            [BlockAttrs.mk "x" "original", BlockAttrs.mk "c1" "original"] "c1")[j]?
          = some { b with status := "pending" } ∧
        ∀ k, k ≠ j →
          (markPendingTx
              [BlockAttrs.mk "x" "original", BlockAttrs.mk "c1" "original"] "c1")[k]?
            = [BlockAttrs.mk "x" "original", BlockAttrs.mk "c1" "original"][k]?) :=
  ⟨by decide,
    markPendingTx_by_identity
      [BlockAttrs.mk "x" "original", BlockAttrs.mk "c1" "original"] "c1" (by decide)⟩

/-! ## The batch chunker (`createChunks`, geminiService lines 319-360)

Strings are modelled as character lists; the JS `.length` is the list
length. -/

theorem grpText_append_one (g : List Paragraph) (p : Paragraph) :
    grpText (g ++ [p]) = grpText g ++ serializeClause p := by
  simp [grpText]

theorem grpText_singleton (p : Paragraph) : grpText [p] = serializeClause p := by
  simp [grpText]

/-- Every step of the chunking loop is the serialized image of the
corresponding step of the grouping loop. -/
theorem chunkFold_eq_groupFold (m : Nat) (ps : List Paragraph) :
    ∀ (gs : List (List Paragraph)) (cur : List Paragraph),
      ps.foldl (chunkStep m) (ChunkState.mk (gs.map grpText) (grpText cur) cur.length)
        = ChunkState.mk
            ((ps.foldl (groupStep m) (GroupState.mk gs cur)).groups.map grpText)
            (grpText (ps.foldl (groupStep m) (GroupState.mk gs cur)).cur)
            (ps.foldl (groupStep m) (GroupState.mk gs cur)).cur.length := by
  induction ps with
  | nil => intro gs cur; rfl
  | cons p rest ih =>
    intro gs cur
    simp only [List.foldl_cons]
    by_cases hc :
        ((grpText cur).length + (serializeClause p).length > MAX_CHARS_PER_BATCH
          ∨ cur.length + 1 > m)
        ∧ (grpText cur).length > 0
    · have hchunk : chunkStep m (ChunkState.mk (gs.map grpText) (grpText cur) cur.length) p
          = ChunkState.mk ((gs ++ [cur]).map grpText) (grpText [p]) [p].length := by
        simp only [chunkStep, if_pos hc]
        simp [grpText_singleton]
      have hgroup : groupStep m (GroupState.mk gs cur) p
          = GroupState.mk (gs ++ [cur]) [p] := by
        simp only [groupStep, if_pos hc]
      rw [hchunk, hgroup, ih (gs ++ [cur]) [p]]
    · have hchunk : chunkStep m (ChunkState.mk (gs.map grpText) (grpText cur) cur.length) p
          = ChunkState.mk (gs.map grpText) (grpText (cur ++ [p])) (cur ++ [p]).length := by
        simp only [chunkStep, if_neg hc]
        simp [grpText_append_one]
      have hgroup : groupStep m (GroupState.mk gs cur) p
          = GroupState.mk gs (cur ++ [p]) := by
        simp only [groupStep, if_neg hc]
      rw [hchunk, hgroup, ih gs (cur ++ [p])]

theorem serializeClause_length_pos (p : Paragraph) :
    0 < (serializeClause p).length := by
  simp [serializeClause]

theorem grpText_length_pos (g : List Paragraph) (hg : g ≠ []) :
    0 < (grpText g).length := by
  cases g with
  | nil => exact absurd rfl hg
  | cons p r =>
    have := serializeClause_length_pos p
    simp only [grpText, List.map_cons, List.flatten_cons, List.length_append]
    omega

/-- The grouping loop never loses or reorders a block. -/
theorem groupFold_flatten (m : Nat) (ps : List Paragraph) :
    ∀ (gs : List (List Paragraph)) (cur : List Paragraph),
      (ps.foldl (groupStep m) (GroupState.mk gs cur)).groups.flatten
          ++ (ps.foldl (groupStep m) (GroupState.mk gs cur)).cur
        = gs.flatten ++ cur ++ ps := by
  induction ps with
  | nil => intro gs cur; simp
  | cons p rest ih =>
    intro gs cur
    simp only [List.foldl_cons, groupStep]
    by_cases hc :
        ((grpText cur).length + (serializeClause p).length > MAX_CHARS_PER_BATCH
          ∨ cur.length + 1 > m)
        ∧ (grpText cur).length > 0
    · rw [if_pos hc, ih]
      simp
    · rw [if_neg hc, ih]
      simp

/-- After processing at least one block, the current group is non-empty. -/
theorem groupFold_cur_ne_nil (m : Nat) (ps : List Paragraph) (hps : ps ≠ []) :
    ∀ st, (ps.foldl (groupStep m) st).cur ≠ [] := by
  induction ps with
  | nil => exact absurd rfl hps
  | cons p rest ih =>
    intro st
    simp only [List.foldl_cons]
    by_cases hrest : rest = []
    · subst hrest
      simp only [List.foldl_nil, groupStep]
      split
      · simp
      · simp
    · exact ih hrest _

theorem boundaryOk_extend (m : Nat) (g cur : List Paragraph) (p : Paragraph)
    (hcur : cur ≠ []) (h : boundaryOk m g cur) : boundaryOk m g (cur ++ [p]) := by
  intro p0 rest h0
  cases cur with
  | nil => exact absurd rfl hcur
  | cons c cr =>
    have hc : c = p0 := by
      have := congrArg (fun l => l.headD p0) h0
      simpa using this
    exact hc ▸ h c cr rfl

theorem groupStep_inv (m : Nat) (st : GroupState) (p : Paragraph)
    (hInv : GroupInv m st) : GroupInv m (groupStep m st p) := by
  obtain ⟨hne, hcur0, hchain⟩ := hInv
  by_cases hc :
      ((grpText st.cur).length + (serializeClause p).length > MAX_CHARS_PER_BATCH
        ∨ st.cur.length + 1 > m)
      ∧ (grpText st.cur).length > 0
  · have hcurne : st.cur ≠ [] := by
      intro h
      rw [h] at hc
      simp [grpText] at hc
    have hstep : groupStep m st p = GroupState.mk (st.groups ++ [st.cur]) [p] := by
      simp only [groupStep, if_pos hc]
    rw [hstep]
    refine ⟨?_, fun _ => by simp, ?_⟩
    · intro g hg
      rcases List.mem_append.mp hg with h | h
      · exact hne g h
      · simp at h; subst h; exact hcurne
    · rw [List.chain'_append]
      refine ⟨hchain, List.chain'_singleton _, ?_⟩
      intro x hx y hy
      rw [List.getLast?_concat] at hx
      simp at hx hy
      subst hx; subst hy
      intro p0 rest h0
      have : p0 = p := by simpa using congrArg (fun l => l.headD p0) h0.symm
      subst this
      exact hc.1
  · have hstep : groupStep m st p = GroupState.mk st.groups (st.cur ++ [p]) := by
      simp only [groupStep, if_neg hc]
    rw [hstep]
    refine ⟨hne, fun hg => by simp, ?_⟩
    rw [List.chain'_append] at hchain ⊢
    obtain ⟨hch1, _, hrel⟩ := hchain
    refine ⟨hch1, List.chain'_singleton _, ?_⟩
    intro x hx y hy
    simp at hy
    subst hy
    have hcurne : st.cur ≠ [] := by
      apply hcur0
      intro hg
      rw [hg] at hx
      simp at hx
    exact boundaryOk_extend m x st.cur p hcurne (hrel x hx st.cur (by simp))

theorem groupFold_inv (m : Nat) (ps : List Paragraph) :
    ∀ st, GroupInv m st → GroupInv m (ps.foldl (groupStep m) st) := by
  induction ps with
  | nil => intro st h; exact h
  | cons p rest ih =>
    intro st h
    exact ih _ (groupStep_inv m st p h)

theorem grpText_append (a b : List Paragraph) :
    grpText (a ++ b) = grpText a ++ grpText b := by
  simp [grpText]

theorem grpText_flatten (gs : List (List Paragraph)) :
    (gs.map grpText).flatten = grpText gs.flatten := by
  induction gs with
  | nil => rfl
  | cons g rest ih => simp [grpText_append, ih]

/-- C3: batch chunker bounds and order.  The chunks are exactly the
serialized images of a partition of the paragraph list into consecutive
non-empty groups (so no block's serialization is split across chunks and
the concatenation of all chunks is the serialization of all blocks in
input order); every chunk boundary is forced by the character budget or
the dynamic clause ceiling; and the ceiling is antitone in the average
block size (shorter average ⇒ higher ceiling). -/
theorem createChunks_spec (doc : ShadowDocument) :
    createChunks doc = (chunkGroups doc).map grpText ∧
    (chunkGroups doc).flatten = doc.paragraphs ∧
    (∀ g ∈ chunkGroups doc, g ≠ []) ∧
    List.Chain'
      (boundaryOk (dynamicMaxClauses
        ((((doc.paragraphs.map (fun p => p.text.length)).sum : Nat) : Rat)
          / ((doc.paragraphs.length : Nat) : Rat))))
      (chunkGroups doc) ∧
    (createChunks doc).flatten = grpText doc.paragraphs ∧
    (∀ a b : Rat, a ≤ b → dynamicMaxClauses b ≤ dynamicMaxClauses a) := by
  have hanti : ∀ a b : Rat, a ≤ b → dynamicMaxClauses b ≤ dynamicMaxClauses a := by
    intro a b hab
    unfold dynamicMaxClauses
    split_ifs <;> first | omega | linarith
  by_cases hlen : doc.paragraphs.length = 0
  · have hnil : doc.paragraphs = [] := List.length_eq_zero.mp hlen
    refine ⟨?_, ?_, ?_, ?_, ?_, hanti⟩ <;>
      simp [createChunks, chunkGroups, hlen, hnil, grpText]
  · set m := dynamicMaxClauses
      ((((doc.paragraphs.map (fun p => p.text.length)).sum : Nat) : Rat)
        / ((doc.paragraphs.length : Nat) : Rat)) with hm
    have hpne : doc.paragraphs ≠ [] := by
      intro h; rw [h] at hlen; exact hlen rfl
    have hfold := chunkFold_eq_groupFold m doc.paragraphs [] []
    have hcur := groupFold_cur_ne_nil m doc.paragraphs hpne (GroupState.mk [] [])
    have hflat := groupFold_flatten m doc.paragraphs [] []
    have hInv := groupFold_inv m doc.paragraphs (GroupState.mk [] [])
      ⟨by simp, by simp, by simp⟩
    set st := doc.paragraphs.foldl (groupStep m) (GroupState.mk [] []) with hst
    obtain ⟨hne, _, hchain⟩ := hInv
    have hguard : (grpText st.cur).length > 0 := grpText_length_pos _ hcur
    have hfold' : doc.paragraphs.foldl (chunkStep m) (ChunkState.mk [] [] 0)
        = ChunkState.mk (st.groups.map grpText) (grpText st.cur) st.cur.length := by
      rw [hst]
      simpa [grpText] using hfold
    have hchunks : createChunks doc = st.groups.map grpText ++ [grpText st.cur] := by
      have hred : createChunks doc
          = (if (doc.paragraphs.foldl (chunkStep m) (ChunkState.mk [] [] 0)).currentChunk.length > 0
             then (doc.paragraphs.foldl (chunkStep m) (ChunkState.mk [] [] 0)).chunks
                ++ [(doc.paragraphs.foldl (chunkStep m) (ChunkState.mk [] [] 0)).currentChunk]
             else (doc.paragraphs.foldl (chunkStep m) (ChunkState.mk [] [] 0)).chunks) := by
        simp only [createChunks]
        rw [if_neg hlen]
      rw [hred, hfold']
      simp [hguard]
    have hgroups : chunkGroups doc = st.groups ++ [st.cur] := by
      have hred : chunkGroups doc
          = (if (grpText (doc.paragraphs.foldl (groupStep m) (GroupState.mk [] [])).cur).length > 0
             then (doc.paragraphs.foldl (groupStep m) (GroupState.mk [] [])).groups
                ++ [(doc.paragraphs.foldl (groupStep m) (GroupState.mk [] [])).cur]
             else (doc.paragraphs.foldl (groupStep m) (GroupState.mk [] [])).groups) := by
        simp only [chunkGroups]
        rw [if_neg hlen]
      rw [hred, ← hst]
      simp [hguard]
    refine ⟨?_, ?_, ?_, ?_, ?_, hanti⟩
    · rw [hchunks, hgroups]; simp
    · rw [hgroups]; simpa using hflat
    · rw [hgroups]
      intro g hg
      rcases List.mem_append.mp hg with h | h
      · exact hne g h
      · simp at h; subst h; exact hcur
    · rw [hgroups]; exact hchain
    · rw [hchunks]
      rw [show st.groups.map grpText ++ [grpText st.cur]
          = (st.groups ++ [st.cur]).map grpText by simp]
      rw [grpText_flatten]
      congr 1
      simpa using hflat

/-! ## The dispatch pipeline: retry, dedup, sequential batch loop
(geminiService lines 364-525) -/

theorem dedupAccept_inv (st : DedupState) (f : Finding)
    (hInv : DedupInv st) (hf : f.target_id ≠ [])
    (hmem : f.target_id ∉ st.seenIds)
    (hcase : st.seenTextHashes (textHash f) = none
      ∨ ∃ v, st.seenTextHashes (textHash f) = some v
          ∧ (v = [] ∨ v = f.target_id)) :
    DedupInv (dedupAccept st f) := by
  obtain ⟨h0, h1, h2, h3⟩ := hInv
  have hnotkept : ∀ g ∈ st.allFindings, g.target_id ≠ f.target_id := by
    intro g hg heq
    exact hmem (heq ▸ h1 g hg)
  have hhashne : ∀ g ∈ st.allFindings, textHash g ≠ textHash f := by
    intro g hg heq
    have hgh := h2 g hg
    rw [heq] at hgh
    rcases hcase with h | ⟨v, hv, hv'⟩
    · rw [h] at hgh; exact Option.noConfusion hgh
    · rw [hv] at hgh
      have : v = g.target_id := Option.some_inj.mp hgh
      subst this
      rcases hv' with h | h
      · exact h0 g hg h
      · exact hnotkept g hg h
  refine ⟨?_, ?_, ?_, ?_⟩
  · intro g hg
    rcases List.mem_append.mp hg with h | h
    · exact h0 g h
    · simp at h; subst h; exact hf
  · intro g hg
    rcases List.mem_append.mp hg with h | h
    · exact List.mem_append_left _ (h1 g h)
    · simp at h; subst h; simp [dedupAccept]
  · intro g hg
    rcases List.mem_append.mp hg with h | h
    · simp only [dedupAccept]
      rw [if_neg (hhashne g h)]
      exact h2 g h
    · simp at h; subst h
      simp [dedupAccept]
  · simp only [dedupAccept]
    rw [List.pairwise_append]
    refine ⟨h3, by simp, ?_⟩
    intro a ha b hb
    simp at hb; subst hb
    exact hnotkept a ha

theorem dedupStep_inv (st : DedupState) (f : Finding)
    (hInv : DedupInv st) (hf : f.target_id ≠ []) :
    DedupInv (dedupStep st f).1 ∧
    (dedupStep st f).1.allFindings.length + ((dedupStep st f).2.countP isDupWarn)
      = st.allFindings.length + 1 := by
  by_cases hmem : f.target_id ∈ st.seenIds
  · rw [show dedupStep st f = (st, [RunWarn.dupId f.target_id]) by
      simp [dedupStep, hmem]]
    exact ⟨hInv, by simp [isDupWarn, List.countP_cons]⟩
  · cases hlook : st.seenTextHashes (textHash f) with
    | some v =>
      by_cases hv : v ≠ [] ∧ v ≠ f.target_id
      · rw [show dedupStep st f = (st, [RunWarn.dupContent v f.target_id]) by
          simp [dedupStep, hmem, hlook, hv]]
        exact ⟨hInv, by simp [isDupWarn, List.countP_cons]⟩
      · rw [show dedupStep st f = (dedupAccept st f, []) by
          simp [dedupStep, hmem, hlook, hv]]
        refine ⟨dedupAccept_inv st f hInv hf hmem ?_, by simp [dedupAccept]⟩
        right
        refine ⟨v, hlook, ?_⟩
        by_cases hv1 : v = []
        · exact Or.inl hv1
        · right
          by_contra hv2
          exact hv ⟨hv1, hv2⟩
    | none =>
      rw [show dedupStep st f = (dedupAccept st f, []) by
        simp [dedupStep, hmem, hlook]]
      exact ⟨dedupAccept_inv st f hInv hf hmem (Or.inl hlook),
        by simp [dedupAccept]⟩

theorem dedupFold_accum (fs : List Finding) :
    ∀ (st : DedupState) (w0 : List RunWarn),
      fs.foldl (fun acc f => let r := dedupStep acc.1 f; (r.1, acc.2 ++ r.2)) (st, w0)
        = ((dedupFold st fs).1, w0 ++ (dedupFold st fs).2) := by
  induction fs with
  | nil => intro st w0; simp [dedupFold]
  | cons f rest ih =>
    intro st w0
    show rest.foldl _ ((dedupStep st f).1, w0 ++ (dedupStep st f).2) = _
    rw [ih]
    have h2 : dedupFold st (f :: rest)
        = ((dedupFold (dedupStep st f).1 rest).1,
            (dedupStep st f).2 ++ (dedupFold (dedupStep st f).1 rest).2) := by
      show rest.foldl _ ((dedupStep st f).1, [] ++ (dedupStep st f).2) = _
      rw [ih]
      simp
    rw [h2]
    simp [List.append_assoc]

theorem dedupFold_inv (fs : List Finding) :
    ∀ st, DedupInv st → (∀ f ∈ fs, f.target_id ≠ []) →
      DedupInv (dedupFold st fs).1 ∧
      (dedupFold st fs).1.allFindings.length + ((dedupFold st fs).2.countP isDupWarn)
        = st.allFindings.length + fs.length := by
  induction fs with
  | nil => intro st h _; exact ⟨h, by simp [dedupFold]⟩
  | cons f rest ih =>
    intro st h hids
    have hstep := dedupStep_inv st f h (hids f (by simp))
    have hrest := ih (dedupStep st f).1 hstep.1
      (fun g hg => hids g (by simp [hg]))
    have hF : dedupFold st (f :: rest)
        = ((dedupFold (dedupStep st f).1 rest).1,
           (dedupStep st f).2 ++ (dedupFold (dedupStep st f).1 rest).2) := by
      show rest.foldl _ ((dedupStep st f).1, [] ++ (dedupStep st f).2) = _
      rw [dedupFold_accum]
      simp
    rw [hF]
    refine ⟨hrest.1, ?_⟩
    have e1 := hstep.2
    have e2 := hrest.2
    simp only [List.countP_append, List.length_cons]
    omega

theorem runFold_dedup (outcomes : List BatchOutcome) (is : List Nat)
    (hids : ∀ i, ∀ f ∈ okFindings (outcomes.getD i BatchOutcome.skipped),
      f.target_id ≠ []) :
    ∀ st, DedupInv st.dedup →
      DedupInv (runFold outcomes is st).dedup ∧
      (runFold outcomes is st).dedup.allFindings.length
          + ((runFold outcomes is st).warnings.countP isDupWarn)
        = st.dedup.allFindings.length + (st.warnings.countP isDupWarn)
          + (is.map (fun i =>
              (okFindings (outcomes.getD i BatchOutcome.skipped)).length)).sum := by
  induction is with
  | nil => intro st h; exact ⟨h, by simp [runFold]⟩
  | cons i rest ih =>
    intro st h
    have hstep : runFold outcomes (i :: rest) st
        = runFold outcomes rest (processBatch i st (outcomes.getD i BatchOutcome.skipped)) :=
      rfl
    rw [hstep]
    cases houtcome : outcomes.getD i BatchOutcome.skipped with
    | skipped =>
      have hpres := ih (processBatch i st BatchOutcome.skipped)
        (by simpa [processBatch] using h)
      refine ⟨hpres.1, ?_⟩
      have e2 := hpres.2
      have hw : (processBatch i st BatchOutcome.skipped).warnings
          = st.warnings ++ [RunWarn.batchSkipped i] := by simp [processBatch]
      have hd : (processBatch i st BatchOutcome.skipped).dedup = st.dedup := by
        simp [processBatch]
      rw [hw, hd, List.countP_append] at e2
      have hw1 : List.countP isDupWarn [RunWarn.batchSkipped i] = 0 := rfl
      rw [hw1] at e2
      simp only [List.map_cons, List.sum_cons]
      rw [houtcome]
      have hok0 : (okFindings BatchOutcome.skipped).length = 0 := rfl
      rw [hok0]
      omega
    | failed e =>
      have hpres := ih (processBatch i st (BatchOutcome.failed e))
        (by simpa [processBatch] using h)
      refine ⟨hpres.1, ?_⟩
      have e2 := hpres.2
      have hw : (processBatch i st (BatchOutcome.failed e)).warnings
          = st.warnings ++ [RunWarn.batchFailed i] := by simp [processBatch]
      have hd : (processBatch i st (BatchOutcome.failed e)).dedup = st.dedup := by
        simp [processBatch]
      rw [hw, hd, List.countP_append] at e2
      have hw1 : List.countP isDupWarn [RunWarn.batchFailed i] = 0 := rfl
      rw [hw1] at e2
      simp only [List.map_cons, List.sum_cons]
      rw [houtcome]
      have hok0 : (okFindings BatchOutcome.skipped).length = 0 := rfl
      have hok1 : (okFindings (BatchOutcome.failed e)).length = 0 := rfl
      rw [hok1]
      omega
    | ok fs =>
      have hok : ∀ f ∈ fs, f.target_id ≠ [] := by
        intro f hf
        have hi := hids i
        rw [houtcome] at hi
        exact hi f hf
      have hdf := dedupFold_inv fs st.dedup h hok
      have hpres := ih (processBatch i st (BatchOutcome.ok fs))
        (by simpa [processBatch] using hdf.1)
      refine ⟨hpres.1, ?_⟩
      have e1 := hdf.2
      have e2 := hpres.2
      have hw : (processBatch i st (BatchOutcome.ok fs)).warnings
          = st.warnings ++ (dedupFold st.dedup fs).2 := by simp [processBatch]
      have hd : (processBatch i st (BatchOutcome.ok fs)).dedup
          = (dedupFold st.dedup fs).1 := by simp [processBatch]
      rw [hw, hd, List.countP_append] at e2
      simp only [List.map_cons, List.sum_cons]
      rw [houtcome]
      have hokfs : okFindings (BatchOutcome.ok fs) = fs := rfl
      rw [hokfs]
      omega

/-- C2 (amended): cross-batch deduplication.  Provided every finding
carries a non-empty identifier (guaranteed by the IR extractor, whose
records must recover an identifier to exist), the findings returned by
`analyzeRun` have pairwise distinct identifiers — so once a finding is
kept, every later finding with the same identifier is rejected — and
pairwise distinct content fingerprints; and every rejected duplicate is
logged: accepted findings plus dedup warnings add up to exactly the
number of findings the batches delivered, so rejections never abort the
run. -/
theorem analyzeRun_dedup_spec (doc : ShadowDocument) (outcomes : List BatchOutcome)
    (hids : ∀ b ∈ outcomes, ∀ f ∈ okFindings b, f.target_id ≠ []) :
    (analyzeRun doc outcomes).dedup.allFindings.Pairwise
        (fun f g => f.target_id ≠ g.target_id) ∧
    (analyzeRun doc outcomes).dedup.allFindings.Pairwise
        (fun f g => textHash f ≠ textHash g) ∧
    (analyzeRun doc outcomes).dedup.allFindings.length
        + ((analyzeRun doc outcomes).warnings.countP isDupWarn)
      = ((List.range (createChunks doc).length).map
          (fun i => (okFindings (outcomes.getD i BatchOutcome.skipped)).length)).sum := by
  have hids' : ∀ i, ∀ f ∈ okFindings (outcomes.getD i BatchOutcome.skipped),
      f.target_id ≠ [] := by
    intro i f hf
    by_cases hi : i < outcomes.length
    · refine hids _ ?_ f hf
      rw [List.getD_eq_getElem _ _ hi]
      exact List.getElem_mem hi
    · rw [List.getD_eq_default _ _ (by omega)] at hf
      simp [okFindings] at hf
  have hinit : DedupInv initRun.dedup :=
    ⟨by simp [initRun, initDedup], by simp [initRun, initDedup],
      by simp [initRun, initDedup], by simp [initRun, initDedup]⟩
  have hmain := runFold_dedup outcomes (List.range (createChunks doc).length)
    hids' initRun hinit
  obtain ⟨⟨h0, h1, h2, h3⟩, hcount⟩ := hmain
  refine ⟨h3, ?_, by simpa [initRun, initDedup] using hcount⟩
  refine List.Pairwise.imp_of_mem ?_ h3
  intro a b ha hb hne heq
  have hsome : some a.target_id = some b.target_id :=
    (h2 a ha).symm.trans (by rw [heq]; exact h2 b hb)
  exact hne (Option.some_inj.mp hsome)

theorem runFold_trace_bound (outcomes : List BatchOutcome) (is : List Nat) :
    ∀ st : RunState,
      (st.trace.foldl inFlightStep (0, 0)).1 = 0
        ∧ (st.trace.foldl inFlightStep (0, 0)).2 ≤ 1 →
      ((runFold outcomes is st).trace.foldl inFlightStep (0, 0)).1 = 0
        ∧ ((runFold outcomes is st).trace.foldl inFlightStep (0, 0)).2 ≤ 1 := by
  induction is with
  | nil => intro st h; exact h
  | cons i rest ih =>
    intro st h
    have hstep : runFold outcomes (i :: rest) st
        = runFold outcomes rest (processBatch i st (outcomes.getD i BatchOutcome.skipped)) :=
      rfl
    rw [hstep]
    apply ih
    cases houtcome : outcomes.getD i BatchOutcome.skipped with
    | skipped => simpa [processBatch] using h
    | failed e =>
      have htr : (processBatch i st (BatchOutcome.failed e)).trace
          = st.trace ++ [DispatchEvent.callStart i, DispatchEvent.callEnd i] := by
        simp [processBatch]
      rw [htr, List.foldl_append]
      obtain ⟨h1, h2⟩ := h
      rcases hp : st.trace.foldl inFlightStep (0, 0) with ⟨c, m⟩
      rw [hp] at h1 h2
      simp only at h1 h2
      subst h1
      simp [inFlightStep]
      omega
    | ok fs =>
      have htr : (processBatch i st (BatchOutcome.ok fs)).trace
          = st.trace ++ [DispatchEvent.callStart i, DispatchEvent.callEnd i] := by
        simp [processBatch]
      rw [htr, List.foldl_append]
      obtain ⟨h1, h2⟩ := h
      rcases hp : st.trace.foldl inFlightStep (0, 0) with ⟨c, m⟩
      rw [hp] at h1 h2
      simp only at h1 h2
      subst h1
      simp [inFlightStep]
      omega

theorem runFold_trace_shape (outcomes : List BatchOutcome) (is : List Nat) :
    ∀ st : RunState,
      (∃ calls : List Nat,
        st.trace = (calls.map
          (fun i => [DispatchEvent.callStart i, DispatchEvent.callEnd i])).flatten) →
      ∃ calls : List Nat,
        (runFold outcomes is st).trace = (calls.map
          (fun i => [DispatchEvent.callStart i, DispatchEvent.callEnd i])).flatten := by
  induction is with
  | nil => intro st h; exact h
  | cons i rest ih =>
    intro st h
    obtain ⟨calls, hc⟩ := h
    have hstep : runFold outcomes (i :: rest) st
        = runFold outcomes rest (processBatch i st (outcomes.getD i BatchOutcome.skipped)) :=
      rfl
    rw [hstep]
    apply ih
    cases houtcome : outcomes.getD i BatchOutcome.skipped with
    | skipped => exact ⟨calls, by simpa [processBatch] using hc⟩
    | failed e =>
      refine ⟨calls ++ [i], ?_⟩
      simp [processBatch, hc]
    | ok fs =>
      refine ⟨calls ++ [i], ?_⟩
      simp [processBatch, hc]

/-- C9 (amended): the dispatch of `analyzeDocumentWithGemini` is strictly
sequential — at most one remote call is ever in flight, and the trace is
a concatenation of whole `start·end` blocks, so every call completes
before the next one starts.  (The bounded-pool helper
`runWithConcurrencyLimit` exists in the file but is never invoked by the
dispatch loop.) -/
theorem analyzeRun_sequential_dispatch (doc : ShadowDocument)
    (outcomes : List BatchOutcome) :
    maxInFlight (analyzeRun doc outcomes).trace ≤ 1 ∧
    ∃ calls : List Nat,
      (analyzeRun doc outcomes).trace = (calls.map
        (fun i => [DispatchEvent.callStart i, DispatchEvent.callEnd i])).flatten := by
  constructor
  · exact (runFold_trace_bound outcomes (List.range (createChunks doc).length) initRun
      ⟨by simp [initRun], by simp [initRun]⟩).2
  · exact runFold_trace_shape outcomes (List.range (createChunks doc).length) initRun
      ⟨[], by simp [initRun]⟩

/-- Full characterization of the retry loop at any budget `r ≤ 3`: some
number `m ≤ r` of transient failures is retried, each retry slept an
exponentially growing backoff, and the final outcome is exactly the
`(k+m)`-th attempt's outcome; when the budget is not exhausted, the loop
stopped because the last attempt succeeded or failed non-transiently. -/
theorem retry_go_spec {α : Type} (attempts : Nat → Except GemErr α) :
    ∀ r : Nat, r ≤ 3 → ∀ k : Nat,
      ∃ m, m ≤ r ∧
        (generateContentWithRetry attempts k r).2
          = (List.range m).map (fun j => 2000 * 2 ^ (3 - r + j)) ∧
        (∀ j < m, ∃ e, attempts (k + j) = Except.error e ∧ isTransientErr e = true) ∧
        (generateContentWithRetry attempts k r).1 = attempts (k + m) ∧
        (m < r → ∀ e, attempts (k + m) = Except.error e → isTransientErr e = false) := by
  intro r
  induction r with
  | zero =>
    intro _ k
    refine ⟨0, le_refl 0, ?_, by omega, ?_, by omega⟩
    · cases ha : attempts k <;> simp [generateContentWithRetry, ha]
    · cases ha : attempts k <;> simp [generateContentWithRetry, ha]
  | succ r ih =>
    intro hr k
    cases ha : attempts k with
    | ok v =>
      refine ⟨0, by omega, ?_, by omega, ?_, ?_⟩
      · simp [generateContentWithRetry, ha]
      · simp [generateContentWithRetry, ha]
      · intro _ e he
        rw [Nat.add_zero] at he
        rw [ha] at he
        exact Except.noConfusion he
    | error e =>
      by_cases htr : isTransientErr e = true
      · obtain ⟨m', hm', hd', htrans', hres', hlast'⟩ := ih (by omega) (k + 1)
        have hunfold : generateContentWithRetry attempts k (r + 1)
            = ((generateContentWithRetry attempts (k + 1) r).1,
                2000 * 2 ^ (3 - (r + 1))
                  :: (generateContentWithRetry attempts (k + 1) r).2) := by
          rw [generateContentWithRetry, ha]
          show (if _ : 0 < r + 1 ∧ isTransientErr e = true then
              ((generateContentWithRetry attempts (k + 1) (r + 1 - 1)).1,
                2000 * 2 ^ (3 - (r + 1))
                  :: (generateContentWithRetry attempts (k + 1) (r + 1 - 1)).2)
            else (Except.error e, [])) = _
          rw [dif_pos (⟨Nat.succ_pos r, htr⟩ : 0 < r + 1 ∧ isTransientErr e = true)]
          rfl
        refine ⟨m' + 1, by omega, ?_, ?_, ?_, ?_⟩
        · rw [hunfold]
          simp only
          rw [hd']
          have htail : List.map (fun j => 2000 * 2 ^ (3 - r + j)) (List.range m')
              = List.map ((fun j => 2000 * 2 ^ (3 - (r + 1) + j)) ∘ Nat.succ)
                  (List.range m') := by
            apply List.map_congr_left
            intro a _
            simp only [Function.comp_apply]
            congr 1
            congr 1
            omega
          rw [List.range_succ_eq_map, List.map_cons, List.map_map, ← htail]
          norm_num
        · intro j hj
          cases j with
          | zero => exact ⟨e, by simpa using ha, htr⟩
          | succ j' =>
            obtain ⟨e', he', ht'⟩ := htrans' j' (by omega)
            exact ⟨e', by rw [show k + (j' + 1) = k + 1 + j' by omega]; exact he', ht'⟩
        · rw [hunfold]
          simp only
          rw [hres']
          congr 1
          omega
        · intro hm e' he'
          have := hlast' (by omega) e'
          rw [show k + 1 + m' = k + (m' + 1) by omega] at this
          exact this he'
      · have hunfold : generateContentWithRetry attempts k (r + 1)
            = (Except.error e, []) := by
          rw [generateContentWithRetry, ha]
          show (if _ : 0 < r + 1 ∧ isTransientErr e = true then
              ((generateContentWithRetry attempts (k + 1) (r + 1 - 1)).1,
                2000 * 2 ^ (3 - (r + 1))
                  :: (generateContentWithRetry attempts (k + 1) (r + 1 - 1)).2)
            else (Except.error e, [])) = _
          rw [dif_neg (by tauto)]
        refine ⟨0, by omega, ?_, by omega, ?_, ?_⟩
        · rw [hunfold]
          simp
        · rw [hunfold]
          simp [ha]
        · intro _ e' he'
          rw [Nat.add_zero, ha] at he'
          cases he'
          simpa using htr

theorem dedupFold_append_fst (st : DedupState) (a b : List Finding) :
    (dedupFold st (a ++ b)).1 = (dedupFold (dedupFold st a).1 b).1 := by
  have h1 : dedupFold st (a ++ b)
      = b.foldl (fun acc f => let r := dedupStep acc.1 f; (r.1, acc.2 ++ r.2))
          ((dedupFold st a).1, (dedupFold st a).2) := by
    show (a ++ b).foldl _ (st, []) = _
    rw [List.foldl_append]
    rfl
  rw [h1, dedupFold_accum]

/-- The dedup bookkeeping of a run is exactly the dedup fold over the
concatenation of the findings the batches delivered, in batch order:
failed and skipped batches contribute nothing and do not interrupt the
processing of later batches. -/
theorem runFold_core (outcomes : List BatchOutcome) (is : List Nat) :
    ∀ st : RunState,
      (runFold outcomes is st).dedup
        = (dedupFold st.dedup
            ((is.map (fun i => okFindings (outcomes.getD i BatchOutcome.skipped))).flatten)).1 := by
  induction is with
  | nil =>
    intro st
    simp [runFold, dedupFold]
  | cons i rest ih =>
    intro st
    have hstep : runFold outcomes (i :: rest) st
        = runFold outcomes rest (processBatch i st (outcomes.getD i BatchOutcome.skipped)) :=
      rfl
    rw [hstep, ih]
    simp only [List.map_cons, List.flatten_cons]
    cases houtcome : outcomes.getD i BatchOutcome.skipped with
    | skipped =>
      rw [show (processBatch i st BatchOutcome.skipped).dedup = st.dedup from by
        simp [processBatch]]
      rw [show okFindings BatchOutcome.skipped = [] from rfl]
      rw [List.nil_append]
    | failed e =>
      rw [show (processBatch i st (BatchOutcome.failed e)).dedup = st.dedup from by
        simp [processBatch]]
      rw [show okFindings (BatchOutcome.failed e) = [] from rfl]
      rw [List.nil_append]
    | ok fs =>
      rw [show (processBatch i st (BatchOutcome.ok fs)).dedup
          = (dedupFold st.dedup fs).1 from by simp [processBatch]]
      rw [show okFindings (BatchOutcome.ok fs) = fs from rfl]
      rw [dedupFold_append_fst]

theorem runFold_warn_mono (outcomes : List BatchOutcome) (is : List Nat) :
    ∀ (st : RunState) (w : RunWarn), w ∈ st.warnings →
      w ∈ (runFold outcomes is st).warnings := by
  induction is with
  | nil => intro st w h; exact h
  | cons i rest ih =>
    intro st w h
    have hstep : runFold outcomes (i :: rest) st
        = runFold outcomes rest (processBatch i st (outcomes.getD i BatchOutcome.skipped)) :=
      rfl
    rw [hstep]
    apply ih
    cases houtcome : outcomes.getD i BatchOutcome.skipped with
    | skipped => exact List.mem_append_left _ h
    | failed e => exact List.mem_append_left _ h
    | ok fs => exact List.mem_append_left _ h

theorem runFold_batchFailed_mem (outcomes : List BatchOutcome) (is : List Nat)
    (j : Nat) (e : GemErr)
    (hfail : outcomes.getD j BatchOutcome.skipped = BatchOutcome.failed e) :
    ∀ st : RunState, j ∈ is →
      RunWarn.batchFailed j ∈ (runFold outcomes is st).warnings := by
  induction is with
  | nil => intro st h; cases h
  | cons i rest ih =>
    intro st hj
    have hstep : runFold outcomes (i :: rest) st
        = runFold outcomes rest (processBatch i st (outcomes.getD i BatchOutcome.skipped)) :=
      rfl
    rw [hstep]
    by_cases hij : i = j
    · subst hij
      apply runFold_warn_mono
      rw [hfail]
      exact List.mem_append_right _ (by simp)
    · rcases List.mem_cons.mp hj with h | h
      · exact absurd h.symm hij
      · exact ih _ h

/-- C4: retry and batch isolation.  Every remote call is retried only on
transient failures with exponentially doubling backoff delays
(2000, 4000, 8000 ms) up to the fixed ceiling of 3 retries, after which
the error propagates; a batch whose call fails is caught and logged, its
records are excluded, and the run's findings are exactly those of the
successful batches, processed in order. -/
theorem retry_and_batch_isolation {α : Type} (attempts : Nat → Except GemErr α)
    (k : Nat) (doc : ShadowDocument) (outcomes : List BatchOutcome)
    (j : Nat) (e : GemErr) (hj : j < (createChunks doc).length)
    (hfail : outcomes.getD j BatchOutcome.skipped = BatchOutcome.failed e) :
    (∃ m, m ≤ 3 ∧
      (generateContentWithRetry attempts k).2
        = (List.range m).map (fun i => 2000 * 2 ^ i) ∧
      (∀ i < m, ∃ e', attempts (k + i) = Except.error e' ∧ isTransientErr e' = true) ∧
      (generateContentWithRetry attempts k).1 = attempts (k + m) ∧
      (m < 3 → ∀ e', attempts (k + m) = Except.error e' → isTransientErr e' = false)) ∧
    RunWarn.batchFailed j ∈ (analyzeRun doc outcomes).warnings ∧
    (analyzeRun doc outcomes).dedup
      = (dedupFold initDedup
          (((List.range (createChunks doc).length).map
            (fun i => okFindings (outcomes.getD i BatchOutcome.skipped))).flatten)).1 := by
  refine ⟨?_, ?_, ?_⟩
  · obtain ⟨m, hm, hd, ht, hres, hlast⟩ := retry_go_spec attempts 3 (le_refl 3) k
    refine ⟨m, hm, ?_, ht, hres, hlast⟩
    rw [hd]
    apply List.map_congr_left
    intro a _
    norm_num
  · exact runFold_batchFailed_mem outcomes _ j e hfail initRun (List.mem_range.mpr hj)
  · exact runFold_core outcomes _ initRun

/-- A step of the chunk loop from an empty current chunk never flushes:
the block starts the current chunk. -/
theorem chunkStep_start (m : Nat) (p : Paragraph) :
    chunkStep m (ChunkState.mk [] [] 0) p
      = ChunkState.mk [] (serializeClause p) 1 := by
  simp [chunkStep]

/-- A step of the chunk loop whose block would push the current
non-empty chunk past the character budget flushes the chunk first. -/
theorem chunkStep_flush_chars (m : Nat) (cs : List (List Char)) (cur : List Char)
    (k : Nat) (p : Paragraph)
    (hchars : cur.length + (serializeClause p).length > MAX_CHARS_PER_BATCH)
    (hne : cur.length > 0) :
    chunkStep m (ChunkState.mk cs cur k) p
      = ChunkState.mk (cs ++ [cur]) (serializeClause p) 1 := by
  simp only [chunkStep]
  rw [if_pos ⟨Or.inl hchars, hne⟩]
  simp

/-- A single-paragraph document always makes exactly one chunk: the
first block never flushes (the current chunk is still empty) and the
trailing chunk is flushed at the end. -/
theorem createChunks_singleton (p : Paragraph) :
    createChunks (ShadowDocument.mk [p]) = [serializeClause p] := by
  have h1 : ∀ m : Nat, chunkStep m (ChunkState.mk [] [] 0) p
      = ChunkState.mk [] (serializeClause p) 1 := fun m => chunkStep_start m p
  simp only [createChunks]
  rw [if_neg (by simp : ¬ ((ShadowDocument.mk [p]).paragraphs.length = 0))]
  simp only [List.foldl_cons, List.foldl_nil]
  rw [h1]
  rw [if_pos (serializeClause_length_pos p)]
  simp

theorem bigBlock_serialized_length : (serializeClause bigBlock).length = 25034 := by
  have hser : serializeClause bigBlock
      = "<<CLAUSE id=\"".toList ++ ([] : List Char) ++ "\">>\n".toList
        ++ List.replicate 25000 'a' ++ "\n<<END_CLAUSE>>\n\n".toList := rfl
  rw [hser]
  simp only [List.length_append, List.length_replicate]
  decide

/-- Two 25000-character blocks split into exactly two chunks: the second
block would push the first chunk past the 40000-character budget. -/
theorem createChunks_two_big :
    createChunks (ShadowDocument.mk [bigBlock, bigBlock])
      = [serializeClause bigBlock, serializeClause bigBlock] := by
  have hchars : (serializeClause bigBlock).length + (serializeClause bigBlock).length
      > MAX_CHARS_PER_BATCH := by
    rw [bigBlock_serialized_length]
    norm_num [MAX_CHARS_PER_BATCH]
  have h1 : ∀ m : Nat, chunkStep m (ChunkState.mk [] [] 0) bigBlock
      = ChunkState.mk [] (serializeClause bigBlock) 1 := fun m => chunkStep_start m bigBlock
  have h2 : ∀ m : Nat,
      chunkStep m (ChunkState.mk [] (serializeClause bigBlock) 1) bigBlock
        = ChunkState.mk [serializeClause bigBlock] (serializeClause bigBlock) 1 :=
    fun m => chunkStep_flush_chars m [] (serializeClause bigBlock) 1 bigBlock hchars
      (serializeClause_length_pos bigBlock)
  simp only [createChunks]
  rw [if_neg (by simp : ¬ ((ShadowDocument.mk [bigBlock, bigBlock]).paragraphs.length = 0))]
  simp only [List.foldl_cons, List.foldl_nil]
  rw [h1, h2]
  rw [if_pos (serializeClause_length_pos bigBlock)]
  simp

/-- C9 counterexample: a two-batch run's dispatch trace is strictly
serial — the second remote call starts only after the first has ended —
so it is not the trace of a bounded worker pool with a limit of two or
more in-flight calls (the claimed `runWithConcurrencyLimit` is defined
in the file but never called by `analyzeDocumentWithGemini`). -/
theorem analyzeRun_not_pool_counterexample :
    (createChunks (ShadowDocument.mk [bigBlock, bigBlock])).length = 2 ∧
    (analyzeRun (ShadowDocument.mk [bigBlock, bigBlock])
        [BatchOutcome.ok [], BatchOutcome.ok []]).trace
      = [DispatchEvent.callStart 0, DispatchEvent.callEnd 0,
         DispatchEvent.callStart 1, DispatchEvent.callEnd 1] ∧
    ¬ IsPoolDispatch 3 2
        (analyzeRun (ShadowDocument.mk [bigBlock, bigBlock])
          [BatchOutcome.ok [], BatchOutcome.ok []]).trace := by
  have hlen : (createChunks (ShadowDocument.mk [bigBlock, bigBlock])).length = 2 := by
    rw [createChunks_two_big]
    rfl
  have htr : (analyzeRun (ShadowDocument.mk [bigBlock, bigBlock])
        [BatchOutcome.ok [], BatchOutcome.ok []]).trace
      = [DispatchEvent.callStart 0, DispatchEvent.callEnd 0,
         DispatchEvent.callStart 1, DispatchEvent.callEnd 1] := by
    simp only [analyzeRun, hlen]
    decide
  refine ⟨hlen, htr, fun hpool => ?_⟩
  have h2 := hpool (by norm_num) (le_refl 2)
  rw [htr] at h2
  exact absurd h2 (by decide)

/-- Witness for C2 at a concrete one-batch run with one finding carrying
a non-empty identifier. -/
theorem analyzeRun_dedup_spec_witness :
    (∀ b ∈ ([BatchOutcome.ok [Finding.mk ['A'] ['T']]] : List BatchOutcome),
        ∀ f ∈ okFindings b, f.target_id ≠ []) ∧
    ((analyzeRun (ShadowDocument.mk [Paragraph.mk ['p'] ['t']])
          [BatchOutcome.ok [Finding.mk ['A'] ['T']]]).dedup.allFindings.Pairwise
        (fun f g => f.target_id ≠ g.target_id) ∧
      (analyzeRun (ShadowDocument.mk [Paragraph.mk ['p'] ['t']])
          [BatchOutcome.ok [Finding.mk ['A'] ['T']]]).dedup.allFindings.Pairwise
        (fun f g => textHash f ≠ textHash g) ∧
      (analyzeRun (ShadowDocument.mk [Paragraph.mk ['p'] ['t']])
          [BatchOutcome.ok [Finding.mk ['A'] ['T']]]).dedup.allFindings.length
          + ((analyzeRun (ShadowDocument.mk [Paragraph.mk ['p'] ['t']])
              [BatchOutcome.ok [Finding.mk ['A'] ['T']]]).warnings.countP isDupWarn)
        = ((List.range (createChunks (ShadowDocument.mk [Paragraph.mk ['p'] ['t']])).length).map
            (fun i => (okFindings (([BatchOutcome.ok [Finding.mk ['A'] ['T']]]
                : List BatchOutcome).getD i BatchOutcome.skipped)).length)).sum) :=
  ⟨by decide,
    analyzeRun_dedup_spec (ShadowDocument.mk [Paragraph.mk ['p'] ['t']])
      [BatchOutcome.ok [Finding.mk ['A'] ['T']]] (by decide)⟩

/-- C2 counterexample: with an empty-string identifier (a falsy value in
the code's `existingIdForText &&` guard), a later finding with the same
content fingerprint but a different identifier is accepted, so the run's
findings are not fingerprint-distinct across identifiers as claimed. -/
theorem analyzeRun_fingerprint_counterexample :
    (analyzeRun (ShadowDocument.mk [Paragraph.mk ['p'] ['t']])
        [BatchOutcome.ok [Finding.mk [] ['T'], Finding.mk ['B'] ['T']]]).dedup.allFindings
      = [Finding.mk [] ['T'], Finding.mk ['B'] ['T']] ∧
    textHash (Finding.mk [] ['T']) = textHash (Finding.mk ['B'] ['T']) ∧
    (Finding.mk [] ['T']).target_id ≠ (Finding.mk ['B'] ['T']).target_id := by
  have hlen : (createChunks (ShadowDocument.mk [Paragraph.mk ['p'] ['t']])).length = 1 := by
    rw [createChunks_singleton]
    rfl
  refine ⟨?_, by decide, by decide⟩
  simp only [analyzeRun, hlen]
  decide

/-- Witness for C4 at a concrete run: one quota failure then success on
the retry side, and a one-batch document whose single batch fails. -/
theorem retry_and_batch_isolation_witness :
    (0 < (createChunks (ShadowDocument.mk [Paragraph.mk ['p'] ['t']])).length ∧
      ([BatchOutcome.failed (GemErr.mk (some 500) none "")]
          : List BatchOutcome).getD 0 BatchOutcome.skipped
        = BatchOutcome.failed (GemErr.mk (some 500) none "")) ∧
    ((∃ m, m ≤ 3 ∧
      (generateContentWithRetry
          (fun n => if n = 0 then Except.error (GemErr.mk (some 429) none "quota")
            else Except.ok (7 : Nat)) 0).2
        = (List.range m).map (fun i => 2000 * 2 ^ i) ∧
      (∀ i < m, ∃ e', (fun n => if n = 0 then Except.error (GemErr.mk (some 429) none "quota")
            else Except.ok (7 : Nat)) (0 + i) = Except.error e' ∧ isTransientErr e' = true) ∧
      (generateContentWithRetry
          (fun n => if n = 0 then Except.error (GemErr.mk (some 429) none "quota")
            else Except.ok (7 : Nat)) 0).1
        = (fun n => if n = 0 then Except.error (GemErr.mk (some 429) none "quota")
            else Except.ok (7 : Nat)) (0 + m) ∧
      (m < 3 → ∀ e', (fun n => if n = 0 then Except.error (GemErr.mk (some 429) none "quota")
            else Except.ok (7 : Nat)) (0 + m) = Except.error e' → isTransientErr e' = false)) ∧
    RunWarn.batchFailed 0
        ∈ (analyzeRun (ShadowDocument.mk [Paragraph.mk ['p'] ['t']])
            [BatchOutcome.failed (GemErr.mk (some 500) none "")]).warnings ∧
    (analyzeRun (ShadowDocument.mk [Paragraph.mk ['p'] ['t']])
        [BatchOutcome.failed (GemErr.mk (some 500) none "")]).dedup
      = (dedupFold initDedup
          (((List.range (createChunks (ShadowDocument.mk [Paragraph.mk ['p'] ['t']])).length).map
            (fun i => okFindings (([BatchOutcome.failed (GemErr.mk (some 500) none "")]
                : List BatchOutcome).getD i BatchOutcome.skipped))).flatten)).1) :=
  ⟨⟨by rw [createChunks_singleton]; decide, rfl⟩,
    retry_and_batch_isolation
      (fun n => if n = 0 then Except.error (GemErr.mk (some 429) none "quota")
        else Except.ok (7 : Nat)) 0
      (ShadowDocument.mk [Paragraph.mk ['p'] ['t']])
      [BatchOutcome.failed (GemErr.mk (some 500) none "")] 0
      (GemErr.mk (some 500) none "")
      (by rw [createChunks_singleton]; decide) rfl⟩

/-- C10: empty-document guard.  For a document with no paragraphs,
`createChunks` returns the empty list through its early guard (before
the average block size would be divided by the paragraph count), and the
dispatch loop therefore runs zero iterations: no remote call is started,
no finding is produced, nothing is logged. -/
theorem createChunks_empty_guard (doc : ShadowDocument) (outcomes : List BatchOutcome)
    (h : doc.paragraphs = []) :
    createChunks doc = [] ∧
    (analyzeRun doc outcomes).trace = [] ∧
    (analyzeRun doc outcomes).dedup.allFindings = [] ∧
    (analyzeRun doc outcomes).warnings = [] := by
  have hc : createChunks doc = [] := by
    simp [createChunks, h]
  refine ⟨hc, ?_, ?_, ?_⟩ <;>
    simp [analyzeRun, hc, runFold, initRun, initDedup]

/-- Witness for C10 at the concrete empty document. -/
theorem createChunks_empty_guard_witness :
    (ShadowDocument.mk []).paragraphs = [] ∧
      (createChunks (ShadowDocument.mk []) = [] ∧
        (analyzeRun (ShadowDocument.mk []) []).trace = [] ∧
        (analyzeRun (ShadowDocument.mk []) []).dedup.allFindings = [] ∧
        (analyzeRun (ShadowDocument.mk []) []).warnings = []) :=
  ⟨rfl, createChunks_empty_guard (ShadowDocument.mk []) [] rfl⟩

theorem updVal_not_truthy (o : Option (List Char)) (old : List Char)
    (h : truthy o = false) : updVal o old = old := by
  cases o with
  | none => rfl
  | some v =>
    have hv : v = [] := by simpa [truthy] using h
    simp [updVal, hv]

theorem updVal_truthy (o : Option (List Char)) (old : List Char)
    (h : truthy o = true) : ∃ v, o = some v ∧ updVal o old = v := by
  cases o with
  | none => simp [truthy] at h
  | some v =>
    have hv : v ≠ [] := by simpa [truthy] using h
    exact ⟨v, rfl, by simp [updVal, hv]⟩

theorem updOpt_not_truthy (o : Option (List Char)) (old : Option (List Char))
    (h : truthy o = false) : updOpt o old = old := by
  cases o with
  | none => rfl
  | some v =>
    have hv : v = [] := by simpa [truthy] using h
    simp [updOpt, hv]

theorem updOpt_truthy (o : Option (List Char)) (old : Option (List Char))
    (h : truthy o = true) : ∃ v, o = some v ∧ updOpt o old = some v := by
  cases o with
  | none => simp [truthy] at h
  | some v =>
    have hv : v ≠ [] := by simpa [truthy] using h
    exact ⟨v, rfl, by simp [updOpt, hv]⟩

theorem applyRuleUpdate_frame (orig : PlaybookRule) (body : List Char) :
    FrameRespects (applyRuleUpdate orig body) orig body := by
  unfold FrameRespects applyRuleUpdate
  refine ⟨rfl, rfl, rfl, rfl, rfl, ?_, ?_, ?_, ?_, ?_, ?_, ?_, ?_, ?_, ?_, ?_, ?_,
    ?_, ?_, ?_, ?_, ?_, ?_⟩
  · intro h; exact updVal_not_truthy _ _ h
  · intro h; exact updVal_truthy _ _ h
  · intro h; exact updOpt_not_truthy _ _ h
  · intro h; exact updOpt_truthy _ _ h
  · intro h; exact updVal_not_truthy _ _ h
  · intro h; exact updVal_truthy _ _ h
  · intro h; exact updVal_not_truthy _ _ h
  · intro h; exact updVal_truthy _ _ h
  · intro h; exact updOpt_not_truthy _ _ h
  · intro h; exact updOpt_truthy _ _ h
  · intro h; exact updOpt_not_truthy _ _ h
  · intro h; exact updOpt_truthy _ _ h
  · intro h
    by_cases hc : (truthy (extract "RISK_RED".toList body)
        || truthy (extract "RISK_YELLOW".toList body)
        || truthy (extract "RISK_GREEN".toList body)) = true
    · simp only [hc, if_true]
      exact updVal_not_truthy _ _ h
    · dsimp only
      rw [if_neg hc]
  · intro h
    have hc : (truthy (extract "RISK_RED".toList body)
        || truthy (extract "RISK_YELLOW".toList body)
        || truthy (extract "RISK_GREEN".toList body)) = true := by
      simp only [Bool.or_eq_true]
      exact Or.inl (Or.inl h)
    obtain ⟨v, hv, he⟩ := updVal_truthy (extract "RISK_RED".toList body)
      orig.risk_criteria.red h
    exact ⟨v, hv, by simp only [hc, if_true]; exact he⟩
  · intro h
    by_cases hc : (truthy (extract "RISK_RED".toList body)
        || truthy (extract "RISK_YELLOW".toList body)
        || truthy (extract "RISK_GREEN".toList body)) = true
    · simp only [hc, if_true]
      exact updVal_not_truthy _ _ h
    · dsimp only
      rw [if_neg hc]
  · intro h
    have hc : (truthy (extract "RISK_RED".toList body)
        || truthy (extract "RISK_YELLOW".toList body)
        || truthy (extract "RISK_GREEN".toList body)) = true := by
      simp only [Bool.or_eq_true]
      exact Or.inl (Or.inr h)
    obtain ⟨v, hv, he⟩ := updVal_truthy (extract "RISK_YELLOW".toList body)
      orig.risk_criteria.yellow h
    exact ⟨v, hv, by simp only [hc, if_true]; exact he⟩
  · intro h
    by_cases hc : (truthy (extract "RISK_RED".toList body)
        || truthy (extract "RISK_YELLOW".toList body)
        || truthy (extract "RISK_GREEN".toList body)) = true
    · simp only [hc, if_true]
      exact updVal_not_truthy _ _ h
    · dsimp only
      rw [if_neg hc]
  · intro h
    have hc : (truthy (extract "RISK_RED".toList body)
        || truthy (extract "RISK_YELLOW".toList body)
        || truthy (extract "RISK_GREEN".toList body)) = true := by
      simp only [Bool.or_eq_true]
      exact Or.inr h
    obtain ⟨v, hv, he⟩ := updVal_truthy (extract "RISK_GREEN".toList body)
      orig.risk_criteria.green h
    exact ⟨v, hv, by simp only [hc, if_true]; exact he⟩

/-- C8: update-record frame property.  Every rule returned by
`parseRuleIR` corresponds to a scanned `<<RULE id=...>>` record whose id
strictly matches the `rule_id` of an original rule (records with
unknown or absent ids produce nothing), and equals that original with
only the fields whose sections are present and non-empty replaced — by
exactly the extracted text, never a fabricated value; absent fields,
including each risk colour independently and the never-written fields,
keep their original values. -/
theorem parseRuleIR_update_frame (text : List Char)
    (originalRules : List PlaybookRule) :
    ∀ r ∈ parseRuleIR text originalRules,
      ∃ m ∈ scanBlocks text, ∃ orig ∈ originalRules,
        orig.rule_id = some m.1 ∧
        r = applyRuleUpdate orig m.2 ∧
        FrameRespects r orig m.2 := by
  intro r hr
  simp only [parseRuleIR, List.mem_filterMap] at hr
  obtain ⟨m, hm, hsome⟩ := hr
  cases hfind : List.find? (fun q => q.rule_id == some m.1) originalRules with
  | none =>
    rw [hfind] at hsome
    cases hsome
  | some orig =>
    rw [hfind] at hsome
    have hr2 : r = applyRuleUpdate orig m.2 := (Option.some_inj.mp hsome).symm
    have hmem : orig ∈ originalRules := List.mem_of_find?_eq_some hfind
    have hid : orig.rule_id = some m.1 := by
      have := List.find?_some hfind
      exact eq_of_beq this
    exact ⟨m, hm, orig, hmem, hid, hr2, hr2 ▸ applyRuleUpdate_frame orig m.2⟩

/-- Witness for C8: on the concrete one-record text, the returned rule
is a member of the parse result and the frame property holds of it. -/
theorem parseRuleIR_update_frame_witness :
    applyRuleUpdate ruleUpdOrig ruleUpdBody ∈ parseRuleIR ruleUpdText [ruleUpdOrig] ∧
    (∃ m ∈ scanBlocks ruleUpdText, ∃ orig ∈ [ruleUpdOrig],
      orig.rule_id = some m.1 ∧
      applyRuleUpdate ruleUpdOrig ruleUpdBody = applyRuleUpdate orig m.2 ∧
      FrameRespects (applyRuleUpdate ruleUpdOrig ruleUpdBody) orig m.2) :=
  ⟨by decide,
    parseRuleIR_update_frame ruleUpdText [ruleUpdOrig]
      (applyRuleUpdate ruleUpdOrig ruleUpdBody) (by decide)⟩

end ContractPlaybook
